import Mathlib

/-!
Peptide mass fingerprint fragmenter (`ims::PMFFragmenter`)

A shallow embedding of `src/imslib/src/ims/pmffragmenter.h` and the properties of
`PMFFragmenter::predictSpectrum`.

* `std::string` is `List Char`; `s.find_first_of(c) != npos` is `s.contains c`.
* `size_t` values are `Nat`: every index, start offset and length the function computes is
  bounded by the sequence length, and the inner loop counter is bounded by the number of
  subfragments because of the `break`, so no arithmetic wraps.
* `MassType` is any type `M` with an addition and a zero, `(mass_type)0.0` being `0`; a
  statement that needs exact arithmetic assumes an additive monoid.
* `get_mass_functor(alphabet, std::string(1, c))` is the total map `alphabet : Char → M`.
* The output parameter `peaklist` is passed in and returned.
-/

namespace ims

/-- Modelled from the spec: the output record `Fragmenter<MassType>::peak_type`, whose declaration
is not part of `pmffragmenter.h`. It is built by `peak_type(mass, start, length)` followed by
`setMiscleavageCount`, and read by `getLength`. -/
structure Peak (M : Type) where
  mass : M
  start : Nat
  length : Nat
  miscleavage_count : Nat
deriving DecidableEq

/-- The data structure for subfragments (`subfragment_t`), fields in declaration order. -/
structure subfragment_t (M : Type) where
  mass : M
  cleavage_char_mass : M
  length : Nat
  cleavage_length : Nat
  start : Nat
deriving DecidableEq

/-- The generator `PMFFragmenter`. The field `modifier` is the one inherited from the base class
`Fragmenter<MassType>` (a possibly null pointer to a post-processor of the peak list); `alphabet`
stands for the alphabet together with the mass functor. -/
structure PMFFragmenter (M : Type) where
  modifier : Option (List (Peak M) → List (Peak M))
  alphabet : Char → M
  cleavage_characters : List Char
  prohibition_characters : List Char
  withCleave : Bool
  max_miscleaves : Nat

section Embedding

variable {M : Type} [Add M] [Zero M]

/-- The constructor: `max_miscleaves(0)`, and no modifier is installed. -/
def PMFFragmenter.new (alphabet : Char → M) (cleavage_characters prohibition_characters : List Char)
    (withCleave : Bool) : PMFFragmenter M :=
  PMFFragmenter.mk none alphabet cleavage_characters prohibition_characters withCleave 0

/-- The setter `setMaxMiscleaves`. -/
def PMFFragmenter.setMaxMiscleaves (g : PMFFragmenter M) (max_miscleaves : Nat) : PMFFragmenter M :=
  PMFFragmenter.mk g.modifier g.alphabet g.cleavage_characters g.prohibition_characters
    g.withCleave max_miscleaves

/-- The getter `getMaxMiscleaves`. -/
def PMFFragmenter.getMaxMiscleaves (g : PMFFragmenter M) : Nat := g.max_miscleaves

/-- The character `sequence[i]`. -/
def charAt (sequence : List Char) (i : Nat) : Char := sequence.getD i default

/-- The value of the local `cleave_here` at the second `if (cleave_here)` of iteration `i` of the
STEP 1 loop: `sequence[i]` is a cleavage character and, when a next character exists, that next
character is not a prohibition character. -/
def PMFFragmenter.cleave_here (g : PMFFragmenter M) (sequence : List Char) (i : Nat) : Bool :=
  let c := charAt sequence i
  let cleave_here := g.cleavage_characters.contains c
  if cleave_here then
    if i + 1 < sequence.length then
      !(g.prohibition_characters.contains (charAt sequence (i + 1)))
    else cleave_here
  else cleave_here

/-- One iteration of the STEP 1 loop, on the pair (`subfragment`, `subfragments`). -/
def PMFFragmenter.step1_body (g : PMFFragmenter M) (sequence : List Char)
    (st : subfragment_t M × List (subfragment_t M)) (i : Nat) :
    subfragment_t M × List (subfragment_t M) :=
  let subfragment := st.1
  let subfragments := st.2
  if g.cleave_here sequence i then
    -- push back current subfragment
    let pushed : subfragment_t M :=
      subfragment_t.mk subfragment.mass (g.alphabet (charAt sequence i)) subfragment.length 1
        subfragment.start
    -- initialize new subfragment
    (subfragment_t.mk 0 0 0 0 (i + 1), subfragments ++ [pushed])
  else
    (subfragment_t.mk (subfragment.mass + g.alphabet (charAt sequence i))
        subfragment.cleavage_char_mass (subfragment.length + 1) subfragment.cleavage_length
        subfragment.start,
      subfragments)

/-- The state of STEP 1 after the iterations `i = 0, ..., n - 1`. -/
def PMFFragmenter.step1_loop (g : PMFFragmenter M) (sequence : List Char) (n : Nat) :
    subfragment_t M × List (subfragment_t M) :=
  (List.range n).foldl (g.step1_body sequence) (subfragment_t.mk 0 0 0 0 0, [])

/-- STEP 1: break into sub-fragments. -/
def PMFFragmenter.step1 (g : PMFFragmenter M) (sequence : List Char) : List (subfragment_t M) :=
  let st := g.step1_loop sequence sequence.length
  -- check if last fragment has to be finished
  if st.1.length > 0 then st.2 ++ [st.1] else st.2

/-- The inner loop of STEP 2 for a fixed iterator `it` with `it->start = start`. The list argument
is the range from `it + i` to `subfragments.end()`; it is empty exactly when
`it + i == subfragments.end()`. -/
def PMFFragmenter.step2_inner (g : PMFFragmenter M) (start : Nat) :
    List (subfragment_t M) → Nat → Nat → M → List (Peak M) → List (Peak M)
  -- `it+i==subfragments.end()`: the loop is left, by its condition or by the `break`
  | [], _, _, _, peaklist => peaklist
  -- `sf` is `*(it+i)`
  | sf :: rest, i, length, mass, peaklist =>
    if i ≤ g.max_miscleaves then
      let length := length + sf.length
      let mass := mass + sf.mass
      -- does cleavage character belong to fragment?
      let peak : Peak M :=
        if g.withCleave then
          Peak.mk (mass + sf.cleavage_char_mass) start (length + sf.cleavage_length) i
        else
          Peak.mk mass start length i
      -- omit fragments of length 0
      let peaklist := if peak.length > 0 then peaklist ++ [peak] else peaklist
      -- add cleavage character, since its in the bigger fragment
      g.step2_inner start rest (i + 1) (length + sf.cleavage_length)
        (mass + sf.cleavage_char_mass) peaklist
    else peaklist

/-- The outer loop of STEP 2; the list argument is the range from `it` to `subfragments.end()`. -/
def PMFFragmenter.step2 (g : PMFFragmenter M) :
    List (subfragment_t M) → List (Peak M) → List (Peak M)
  | [], peaklist => peaklist
  | sf :: rest, peaklist =>
    g.step2 rest (g.step2_inner sf.start (sf :: rest) 0 0 0 peaklist)

/-- The call `peaklist->clear()`. -/
def clear {N : Type} (_peaklist : List (Peak N)) : List (Peak N) := []

/-- The function `predictSpectrum`: the peak list after the call, from the peak list before the
call and the sequence. -/
def PMFFragmenter.predictSpectrum (g : PMFFragmenter M) (peaklist : List (Peak M))
    (sequence : List Char) : List (Peak M) :=
  let peaklist := clear peaklist
  let subfragments := g.step1 sequence
  let peaklist := g.step2 subfragments peaklist
  -- STEP 3: Apply modifier
  match g.modifier with
  | some modify => modify peaklist
  | none => peaklist

/-- The alphabet of the concrete scenarios: `A` has mass 1, `K` has mass 2. -/
def alphabetAK (c : Char) : Int := if c = 'A' then 1 else if c = 'K' then 2 else 0

/-- The sum of the alphabet masses of the characters `sequence[a], ..., sequence[a + n - 1]`. -/
def PMFFragmenter.sumMass (g : PMFFragmenter M) (sequence : List Char) (a n : Nat) : M :=
  (((sequence.drop a).take n).map g.alphabet).sum

/-- A subfragment pushed inside the STEP 1 loop, read against the sequence: it starts at `pos`,
holds the masses of `length` characters none of which is cut after, and is terminated by the
character at `pos + length`, after which the sequence is cut. -/
def PMFFragmenter.CutTerminated (g : PMFFragmenter M) (sequence : List Char) (pos : Nat)
    (sf : subfragment_t M) : Prop :=
  sf.start = pos ∧ sf.mass = g.sumMass sequence pos sf.length ∧
  (∀ p, pos ≤ p → p < pos + sf.length → g.cleave_here sequence p = false) ∧
  sf.cleavage_length = 1 ∧ g.cleave_here sequence (pos + sf.length) = true ∧
  pos + sf.length < sequence.length ∧
  sf.cleavage_char_mass = g.alphabet (charAt sequence (pos + sf.length))

/-- The subfragment pushed after the STEP 1 loop, read against the sequence: the trailing
uncleaved remainder, non-empty and running to the end of the sequence. -/
def PMFFragmenter.Remainder (g : PMFFragmenter M) (sequence : List Char) (pos : Nat)
    (sf : subfragment_t M) : Prop :=
  sf.start = pos ∧ sf.mass = g.sumMass sequence pos sf.length ∧
  (∀ p, pos ≤ p → p < pos + sf.length → g.cleave_here sequence p = false) ∧
  sf.cleavage_length = 0 ∧ sf.cleavage_char_mass = 0 ∧ 0 < sf.length ∧
  pos + sf.length = sequence.length

/-- A list of subfragments that covers the sequence from `pos` to its end. -/
def PMFFragmenter.Chain (g : PMFFragmenter M) (sequence : List Char) :
    Nat → List (subfragment_t M) → Prop
  | pos, [] => pos = sequence.length
  | pos, sf :: rest =>
    (g.CutTerminated sequence pos sf ∧ g.Chain sequence (pos + sf.length + 1) rest) ∨
    (g.Remainder sequence pos sf ∧ rest = [])

/-- A list of cut-terminated subfragments that covers the sequence from `a` to `b`. -/
def PMFFragmenter.Seg (g : PMFFragmenter M) (sequence : List Char) :
    Nat → List (subfragment_t M) → Nat → Prop
  | a, [], b => a = b
  | a, sf :: rest, b =>
    g.CutTerminated sequence a sf ∧ g.Seg sequence (a + sf.length + 1) rest b

/-- The peak built in iteration `i` of the inner loop of STEP 2 at the subfragment `sf`, from the
running totals `length` and `mass` at the start of that iteration. -/
def PMFFragmenter.peakAt (g : PMFFragmenter M) (start : Nat) (sf : subfragment_t M) (i length : Nat)
    (mass : M) : Peak M :=
  if g.withCleave then
    Peak.mk (mass + sf.mass + sf.cleavage_char_mass) start (length + sf.length + sf.cleavage_length) i
  else
    Peak.mk (mass + sf.mass) start (length + sf.length) i

/-- What `if (peak.getLength()>0) peaklist->push_back(peak)` appends. -/
def emit {N : Type} (peak : Peak N) : List (Peak N) := if peak.length > 0 then [peak] else []

/-- Whether the last character of the fragment `p` is a character after which STEP 1 cuts the
sequence. A fragment of the list produced with the cleavage characters included ends either in
such a character, its terminating cleavage character, or in the trailing uncleaved remainder. -/
def PMFFragmenter.endsAtCut (g : PMFFragmenter M) (sequence : List Char) (p : Peak M) : Bool :=
  g.cleave_here sequence (p.start + p.length - 1)

/-- The relation between a fragment `pf` produced without and the corresponding fragment `pt`
produced with the cleavage characters included: same start and miscleavage count; when `pt` has a
terminating cleavage character, `pf` is `pt` less that character; otherwise same mass and
length. -/
def PMFFragmenter.Toggled (g : PMFFragmenter M) (sequence : List Char) (pf pt : Peak M) : Prop :=
  pf.start = pt.start ∧ pf.miscleavage_count = pt.miscleavage_count ∧
  if g.endsAtCut sequence pt then
    pt.mass = pf.mass + g.alphabet (charAt sequence (pt.start + pt.length - 1)) ∧
      pt.length = pf.length + 1
  else
    pf.mass = pt.mass ∧ pf.length = pt.length

/-- The fragments, of the list produced with the cleavage characters included, that are more than
a lone terminating cleavage character. -/
def PMFFragmenter.moreThanCleavageChar (g : PMFFragmenter M) (sequence : List Char)
    (p : Peak M) : Bool :=
  !(g.endsAtCut sequence p) || decide (1 < p.length)

/-- The order of emission: `p` starts strictly before `q`, or both start at the same offset and
`q` has the larger miscleavage count and the larger length. -/
def occursBefore {N : Type} (p q : Peak N) : Prop :=
  p.start < q.start ∨
    (p.start = q.start ∧ p.miscleavage_count < q.miscleavage_count ∧ p.length < q.length)

/-- The copy constructor. The argument `base_copy` is what the copy constructor of the base class
`Fragmenter<MassType>`, which is not part of this file, makes of the inherited `modifier`. -/
def PMFFragmenter.copy (base_copy : Option (List (Peak M) → List (Peak M)) →
    Option (List (Peak M) → List (Peak M))) (fragmenter : PMFFragmenter M) : PMFFragmenter M :=
  PMFFragmenter.mk (base_copy fragmenter.modifier) fragmenter.alphabet
    fragmenter.cleavage_characters fragmenter.prohibition_characters fragmenter.withCleave 0

/-- The list the spec describes from the fully cleaved list `F` (the list produced with
max-miscleaves 0): for `j = 0, ..., |F| - 1` in order and `k = 0, ..., min(m, |F| - 1 - j)` in
order, the fragment with the start of `F[j]`, the summed lengths and the summed masses of
`F[j], ..., F[j + k]`, and miscleavage count `k`. -/
def mergedFragmentsSpec (m : Nat) (F : List (Peak M)) : List (Peak M) :=
  (List.range F.length).flatMap fun j =>
    match F.drop j with
    | [] => []
    | f :: _ =>
      (List.range (min m (F.length - 1 - j) + 1)).map fun k =>
        Peak.mk (((F.drop j).take (k + 1)).map Peak.mass).sum f.start
          (((F.drop j).take (k + 1)).map Peak.length).sum k

/-- The fragment emitted for the subfragment `sf` alone when the cleavage characters are
included. -/
def fullyCleaved (sf : subfragment_t M) : Peak M :=
  Peak.mk (0 + sf.mass + sf.cleavage_char_mass) sf.start (0 + sf.length + sf.cleavage_length) 0

/-- Whether position `p` of the sequence is a cut position in the words of the spec:
`sequence[p]` is a cleavage character and either `p` is the last index or `sequence[p+1]` is not
a prohibition character. -/
def isCutPosition (cc pc : List Char) (sequence : List Char) (p : Nat) : Bool :=
  decide (p < sequence.length) && cc.contains (charAt sequence p) &&
    (decide (p + 1 = sequence.length) || !(pc.contains (charAt sequence (p + 1))))

/-- The number of cut positions `p` with `a ≤ p < a + n`. -/
def cutCount (cc pc : List Char) (sequence : List Char) (a n : Nat) : Nat :=
  (List.range' a n).countP (isCutPosition cc pc sequence)

/-- The start offset, length and miscleavage count of a fragment: all of it but the mass. -/
def Peak.shape {N : Type} (p : Peak N) : Nat × Nat × Nat :=
  (p.start, p.length, p.miscleavage_count)

/-- The length, cleavage length and start offset of a subfragment: all of it but the masses. -/
def subfragment_t.shape {N : Type} (sf : subfragment_t N) : Nat × Nat × Nat :=
  (sf.length, sf.cleavage_length, sf.start)

/-- A mass type with a rounding addition, after the sums a `double` computes on whole numbers
below 2^54: a sum up to 2^53 is exact, a larger sum is rounded to the nearest even number, and
of two nearest even numbers the multiple of 4 is taken. -/
structure RoundedMass where
  value : Nat
deriving DecidableEq

/-- The rounding of an exact sum `s`. -/
def RoundedMass.round (s : Nat) : Nat :=
  if s ≤ 9007199254740992 then s else if s % 2 = 0 then s else if s % 4 = 1 then s - 1 else s + 1

instance RoundedMass.instAdd : Add RoundedMass :=
  Add.mk (fun a b => RoundedMass.mk (RoundedMass.round (a.value + b.value)))

instance RoundedMass.instZero : Zero RoundedMass := Zero.mk (RoundedMass.mk 0)

/-- An alphabet over the rounding mass type: `X` has mass 2^53, every other character mass 1. -/
def alphabetXKA (c : Char) : RoundedMass :=
  if c = 'X' then RoundedMass.mk 9007199254740992 else RoundedMass.mk 1

end Embedding

/-! ## Auxiliary lemmas -/

variable {M : Type} [AddMonoid M]

theorem sumMass_zero (g : PMFFragmenter M) (sequence : List Char) (a : Nat) :
    g.sumMass sequence a 0 = 0 := by
  simp [PMFFragmenter.sumMass]

theorem sumMass_succ (g : PMFFragmenter M) (sequence : List Char) (a n : Nat)
    (h : a + n < sequence.length) :
    g.sumMass sequence a (n + 1) = g.sumMass sequence a n + g.alphabet (charAt sequence (a + n)) := by
  have h1 : (sequence.drop a)[n]? = some (charAt sequence (a + n)) := by
    rw [List.getElem?_drop, charAt, List.getD_eq_getElem?_getD, List.getElem?_eq_getElem h]
    rfl
  simp [PMFFragmenter.sumMass, List.take_succ, h1]

theorem sumMass_add (g : PMFFragmenter M) (sequence : List Char) (a n k : Nat) :
    g.sumMass sequence a (n + k) = g.sumMass sequence a n + g.sumMass sequence (a + n) k := by
  simp [PMFFragmenter.sumMass, List.take_add, List.drop_drop, Nat.add_comm]

theorem step2_inner_acc {N : Type} [Add N] [Zero N] (g : PMFFragmenter N) (start : Nat) (its : List (subfragment_t N)) :
    ∀ (i length : Nat) (mass : N) (peaklist : List (Peak N)),
      g.step2_inner start its i length mass peaklist =
        peaklist ++ g.step2_inner start its i length mass [] := by
  induction its with
  | nil => intro i length mass peaklist; simp [PMFFragmenter.step2_inner]
  | cons sf rest ih =>
    intro i length mass peaklist
    simp only [PMFFragmenter.step2_inner]
    split
    · rw [ih]
      conv_rhs => rw [ih]
      split_ifs <;> simp
    · simp

theorem step2_acc {N : Type} [Add N] [Zero N] (g : PMFFragmenter N) (its : List (subfragment_t N)) :
    ∀ peaklist : List (Peak N), g.step2 its peaklist = peaklist ++ g.step2 its [] := by
  induction its with
  | nil => intro peaklist; simp [PMFFragmenter.step2]
  | cons sf rest ih =>
    intro peaklist
    simp only [PMFFragmenter.step2]
    rw [ih, step2_inner_acc, ih (g.step2_inner _ _ _ _ _ [])]
    simp

theorem step2_cons {N : Type} [Add N] [Zero N] (g : PMFFragmenter N) (sf : subfragment_t N) (rest : List (subfragment_t N)) :
    g.step2 (sf :: rest) [] = g.step2_inner sf.start (sf :: rest) 0 0 0 [] ++ g.step2 rest [] := by
  simp only [PMFFragmenter.step2]
  rw [step2_acc]

theorem predictSpectrum_eq {N : Type} [Add N] [Zero N] (alphabet : Char → N) (cc pc : List Char) (wc : Bool) (m : Nat)
    (peaklist : List (Peak N)) (sequence : List Char) :
    ((PMFFragmenter.new alphabet cc pc wc).setMaxMiscleaves m).predictSpectrum peaklist sequence =
      ((PMFFragmenter.new alphabet cc pc wc).setMaxMiscleaves m).step2
        (((PMFFragmenter.new alphabet cc pc wc).setMaxMiscleaves m).step1 sequence) [] := by
  rfl

theorem step1_loop_succ {N : Type} [Add N] [Zero N] (g : PMFFragmenter N) (sequence : List Char) (n : Nat) :
    g.step1_loop sequence (n + 1) = g.step1_body sequence (g.step1_loop sequence n) n := by
  simp [PMFFragmenter.step1_loop, List.range_succ, List.foldl_append]

theorem seg_snoc (g : PMFFragmenter M) (sequence : List Char) (xs : List (subfragment_t M)) :
    ∀ (a b : Nat) (sf : subfragment_t M), g.Seg sequence a xs b → g.CutTerminated sequence b sf →
      g.Seg sequence a (xs ++ [sf]) (b + sf.length + 1) := by
  induction xs with
  | nil =>
    intro a b sf h hsf
    simp only [PMFFragmenter.Seg] at h
    subst h
    simpa [PMFFragmenter.Seg] using hsf
  | cons x rest ih =>
    intro a b sf h hsf
    simp only [PMFFragmenter.Seg, List.cons_append] at h ⊢
    exact ⟨h.1, ih _ _ _ h.2 hsf⟩

theorem seg_chain (g : PMFFragmenter M) (sequence : List Char) (xs : List (subfragment_t M)) :
    ∀ (a b : Nat) (ys : List (subfragment_t M)), g.Seg sequence a xs b → g.Chain sequence b ys →
      g.Chain sequence a (xs ++ ys) := by
  induction xs with
  | nil =>
    intro a b ys h hys
    simp only [PMFFragmenter.Seg] at h
    subst h
    simpa using hys
  | cons x rest ih =>
    intro a b ys h hys
    simp only [PMFFragmenter.Seg] at h
    simp only [List.cons_append, PMFFragmenter.Chain]
    exact Or.inl ⟨h.1, ih _ _ _ h.2 hys⟩

/-- The loop invariant of STEP 1: after `n` iterations the pushed subfragments cover the sequence
up to the start of the current one, which holds the `n - start` characters read since. -/
theorem step1_loop_inv (g : PMFFragmenter M) (sequence : List Char) (n : Nat)
    (hn : n ≤ sequence.length) :
    g.Seg sequence 0 (g.step1_loop sequence n).2 (g.step1_loop sequence n).1.start ∧
    (g.step1_loop sequence n).1.start + (g.step1_loop sequence n).1.length = n ∧
    (g.step1_loop sequence n).1.mass =
      g.sumMass sequence (g.step1_loop sequence n).1.start (g.step1_loop sequence n).1.length ∧
    (∀ p, (g.step1_loop sequence n).1.start ≤ p → p < n → g.cleave_here sequence p = false) ∧
    (g.step1_loop sequence n).1.cleavage_length = 0 ∧
    (g.step1_loop sequence n).1.cleavage_char_mass = 0 := by
  induction n with
  | zero =>
    simp [PMFFragmenter.step1_loop, PMFFragmenter.Seg, sumMass_zero]
  | succ n ih =>
    obtain ⟨hseg, hlen, hmass, hcut, hcl, hccm⟩ := ih (by omega)
    rw [step1_loop_succ]
    generalize g.step1_loop sequence n = st at hseg hlen hmass hcut hcl hccm
    obtain ⟨cur, acc⟩ := st
    simp only at hseg hlen hmass hcut hcl hccm
    by_cases hc : g.cleave_here sequence n = true
    · have hb : g.step1_body sequence (cur, acc) n =
          (subfragment_t.mk 0 0 0 0 (n + 1), acc ++ [subfragment_t.mk cur.mass
            (g.alphabet (charAt sequence n)) cur.length 1 cur.start]) := by
        simp [PMFFragmenter.step1_body, hc]
      rw [hb]
      refine ⟨?_, by simp, by simp [sumMass_zero], ?_, rfl, rfl⟩
      · have hsf : g.CutTerminated sequence cur.start
            (subfragment_t.mk cur.mass (g.alphabet (charAt sequence n)) cur.length 1 cur.start) := by
          refine ⟨rfl, hmass, ?_, rfl, ?_, ?_, ?_⟩
          · intro p hp1 hp2; exact hcut p hp1 (by simp only at hp2; omega)
          · simp only; rw [hlen]; exact hc
          · simp only; omega
          · simp only; rw [hlen]
        have := seg_snoc g sequence acc 0 cur.start _ hseg hsf
        simp only at this
        rw [hlen] at this
        exact this
      · intro p hp1 hp2; simp only at hp1; omega
    · have hc' : g.cleave_here sequence n = false := by simpa using hc
      have hb : g.step1_body sequence (cur, acc) n =
          (subfragment_t.mk (cur.mass + g.alphabet (charAt sequence n)) cur.cleavage_char_mass
            (cur.length + 1) cur.cleavage_length cur.start, acc) := by
        simp [PMFFragmenter.step1_body, hc']
      rw [hb]
      refine ⟨hseg, by simp only; omega, ?_, ?_, hcl, hccm⟩
      · show cur.mass + g.alphabet (charAt sequence n) =
          g.sumMass sequence cur.start (cur.length + 1)
        rw [sumMass_succ g sequence cur.start cur.length (by omega), ← hmass, hlen]
      · intro p hp1 hp2
        by_cases hpn : p = n
        · rw [hpn]; exact hc'
        · exact hcut p hp1 (by omega)

/-- The subfragments computed by STEP 1 cover the whole sequence. -/
theorem step1_chain (g : PMFFragmenter M) (sequence : List Char) :
    g.Chain sequence 0 (g.step1 sequence) := by
  obtain ⟨hseg, hlen, hmass, hcut, hcl, hccm⟩ := step1_loop_inv g sequence sequence.length le_rfl
  simp only [PMFFragmenter.step1]
  generalize g.step1_loop sequence sequence.length = st at hseg hlen hmass hcut hcl hccm
  obtain ⟨cur, acc⟩ := st
  simp only at hseg hlen hmass hcut hcl hccm ⊢
  split
  · rename_i hpos
    apply seg_chain g sequence acc 0 cur.start [cur] hseg
    refine Or.inr ⟨⟨rfl, hmass, ?_, hcl, hccm, hpos, hlen⟩, rfl⟩
    intro p hp1 hp2; exact hcut p hp1 (by omega)
  · have := seg_chain g sequence acc 0 cur.start [] hseg
      (by simp only [PMFFragmenter.Chain]; omega)
    simpa using this

theorem step2_inner_cons {N : Type} [Add N] [Zero N] (g : PMFFragmenter N) (start : Nat) (sf : subfragment_t N)
    (rest : List (subfragment_t N)) (i length : Nat) (mass : N) :
    g.step2_inner start (sf :: rest) i length mass [] =
      if i ≤ g.max_miscleaves then
        emit (g.peakAt start sf i length mass) ++
          g.step2_inner start rest (i + 1) (length + sf.length + sf.cleavage_length)
            (mass + sf.mass + sf.cleavage_char_mass) []
      else [] := by
  simp only [PMFFragmenter.step2_inner]
  split
  · rw [step2_inner_acc]
    simp only [emit, PMFFragmenter.peakAt]
    split_ifs <;> simp_all
  · rfl

theorem mem_emit {N : Type} (peak p : Peak N) : p ∈ emit peak ↔ p = peak ∧ 0 < peak.length := by
  unfold emit
  split_ifs with h
  · simp [h]
  · simp [h]

theorem step2_inner_covers (g : PMFFragmenter M) (sequence : List Char) (start : Nat)
    (its : List (subfragment_t M)) :
    ∀ (i length : Nat) (mass : M), g.Chain sequence (start + length) its →
      mass = g.sumMass sequence start length →
      ∀ p ∈ g.step2_inner start its i length mass [],
        p.start = start ∧ start + p.length ≤ sequence.length ∧
          p.mass = g.sumMass sequence start p.length := by
  induction its with
  | nil => intro i length mass _ _ p hp; simp [PMFFragmenter.step2_inner] at hp
  | cons sf rest ih =>
    intro i length mass hch hmass p hp
    rw [step2_inner_cons] at hp
    split at hp
    swap
    · simp at hp
    simp only [PMFFragmenter.Chain] at hch
    rcases hch with ⟨⟨_, hm, _, hcl, _, hlt, hccm⟩, hrest⟩ | ⟨⟨_, hm, _, hcl, hccm, _, hend⟩, hnil⟩
    · have hfull : mass + sf.mass + sf.cleavage_char_mass =
          g.sumMass sequence start (length + sf.length + sf.cleavage_length) := by
        rw [hcl, sumMass_succ g sequence start (length + sf.length) (by omega), sumMass_add, hmass,
          hm, hccm, Nat.add_assoc]
      rcases List.mem_append.1 hp with hp | hp
      · obtain ⟨rfl, _⟩ := (mem_emit _ _).1 hp
        unfold PMFFragmenter.peakAt
        split_ifs
        · exact ⟨rfl, by simp only; omega, hfull⟩
        · refine ⟨rfl, by simp only; omega, ?_⟩
          simp only
          rw [sumMass_add, hmass, hm]
      · refine ih _ _ _ ?_ hfull p hp
        rw [hcl]
        have e : start + (length + sf.length + 1) = start + length + sf.length + 1 := by omega
        rw [e]; exact hrest
    · subst hnil
      rcases List.mem_append.1 hp with hp | hp
      · obtain ⟨rfl, _⟩ := (mem_emit _ _).1 hp
        unfold PMFFragmenter.peakAt
        split_ifs
        · refine ⟨rfl, by simp only; omega, ?_⟩
          simp only
          rw [hcl, hccm, add_zero, Nat.add_zero, sumMass_add, hmass, hm]
        · refine ⟨rfl, by simp only; omega, ?_⟩
          simp only
          rw [sumMass_add, hmass, hm]
      · simp [PMFFragmenter.step2_inner] at hp

theorem step2_covers (g : PMFFragmenter M) (sequence : List Char) (its : List (subfragment_t M)) :
    ∀ pos : Nat, g.Chain sequence pos its →
      ∀ p ∈ g.step2 its [],
        p.start + p.length ≤ sequence.length ∧ p.mass = g.sumMass sequence p.start p.length := by
  induction its with
  | nil => intro pos _ p hp; simp [PMFFragmenter.step2] at hp
  | cons sf rest ih =>
    intro pos hch p hp
    rw [step2_cons] at hp
    rcases List.mem_append.1 hp with hp | hp
    · have hs : sf.start = pos := by
        simp only [PMFFragmenter.Chain] at hch
        rcases hch with ⟨h, _⟩ | ⟨h, _⟩ <;> exact h.1
      have := step2_inner_covers g sequence sf.start (sf :: rest) 0 0 0
        (by rw [hs]; exact hch) (sumMass_zero g sequence sf.start).symm p hp
      rw [this.1]
      exact this.2
    · simp only [PMFFragmenter.Chain] at hch
      rcases hch with ⟨_, hrest⟩ | ⟨_, hnil⟩
      · exact ih _ hrest p hp
      · subst hnil
        simp [PMFFragmenter.step2] at hp

theorem step2_inner_beyond {N : Type} [Add N] [Zero N] (g : PMFFragmenter N) (start : Nat) (its : List (subfragment_t N))
    (i length : Nat) (mass : N) (h : g.max_miscleaves < i) :
    g.step2_inner start its i length mass [] = [] := by
  cases its with
  | nil => rfl
  | cons sf rest => rw [step2_inner_cons, if_neg (by omega)]

theorem filter_emit_le (g : PMFFragmenter M) (start : Nat) (sf : subfragment_t M) (i length : Nat)
    (mass : M) (m : Nat) :
    (emit (g.peakAt start sf i length mass)).filter (fun p => decide (p.miscleavage_count ≤ m)) =
      if i ≤ m then emit (g.peakAt start sf i length mass) else [] := by
  have hmc : (g.peakAt start sf i length mass).miscleavage_count = i := by
    unfold PMFFragmenter.peakAt; split_ifs <;> rfl
  unfold emit
  split_ifs <;> simp_all

theorem step2_inner_filter (g g' : PMFFragmenter M) (hw : g'.withCleave = g.withCleave)
    (hm : g'.max_miscleaves = g.max_miscleaves + 1) (start : Nat)
    (its : List (subfragment_t M)) :
    ∀ (i length : Nat) (mass : M),
      (g'.step2_inner start its i length mass []).filter
          (fun p => decide (p.miscleavage_count ≤ g.max_miscleaves)) =
        g.step2_inner start its i length mass [] := by
  induction its with
  | nil => intro i length mass; simp [PMFFragmenter.step2_inner]
  | cons sf rest ih =>
    intro i length mass
    have hpk : g'.peakAt start sf i length mass = g.peakAt start sf i length mass := by
      simp only [PMFFragmenter.peakAt, hw]
    rw [step2_inner_cons, step2_inner_cons, hm, hpk]
    by_cases h1 : i ≤ g.max_miscleaves
    · rw [if_pos (by omega), if_pos h1, List.filter_append, ih, filter_emit_le, if_pos h1]
    · rw [if_neg h1]
      by_cases h2 : i ≤ g.max_miscleaves + 1
      · rw [if_pos h2, List.filter_append, filter_emit_le, if_neg h1,
          step2_inner_beyond g' start rest (i + 1) _ _ (by omega)]
        rfl
      · rw [if_neg h2]; rfl

theorem step2_filter (g g' : PMFFragmenter M) (hw : g'.withCleave = g.withCleave)
    (hm : g'.max_miscleaves = g.max_miscleaves + 1) (its : List (subfragment_t M)) :
    (g'.step2 its []).filter (fun p => decide (p.miscleavage_count ≤ g.max_miscleaves)) =
      g.step2 its [] := by
  induction its with
  | nil => simp [PMFFragmenter.step2]
  | cons sf rest ih =>
    rw [step2_cons, step2_cons, List.filter_append, ih, step2_inner_filter g g' hw hm]

theorem step2_inner_toggle (g g' : PMFFragmenter M) (hT : g.withCleave = true)
    (hF : g'.withCleave = false) (hm : g'.max_miscleaves = g.max_miscleaves)
    (sequence : List Char) (start : Nat) (its : List (subfragment_t M)) :
    ∀ (i length : Nat) (mass : M), g.Chain sequence (start + length) its →
      List.Forall₂ (g.Toggled sequence) (g'.step2_inner start its i length mass [])
        ((g.step2_inner start its i length mass []).filter (g.moreThanCleavageChar sequence)) := by
  induction its with
  | nil => intro i length mass _; simp [PMFFragmenter.step2_inner]
  | cons sf rest ih =>
    intro i length mass hch
    rw [step2_inner_cons, step2_inner_cons, hm]
    split
    swap
    · simp
    rw [List.filter_append]
    have hpT : g.peakAt start sf i length mass =
        Peak.mk (mass + sf.mass + sf.cleavage_char_mass) start
          (length + sf.length + sf.cleavage_length) i := by
      simp [PMFFragmenter.peakAt, hT]
    have hpF : g'.peakAt start sf i length mass =
        Peak.mk (mass + sf.mass) start (length + sf.length) i := by
      simp [PMFFragmenter.peakAt, hF]
    simp only [PMFFragmenter.Chain] at hch
    rcases hch with ⟨⟨_, _, _, hcl, hcut, _, hccm⟩, hrest⟩ | ⟨⟨_, _, hnc, hcl, hccm, hpos, _⟩, hnil⟩
    · apply List.rel_append
      · rw [hpT, hpF, hcl]
        have e : start + (length + sf.length + 1) - 1 = start + length + sf.length := by omega
        have hends : g.endsAtCut sequence (Peak.mk (mass + sf.mass + sf.cleavage_char_mass) start
            (length + sf.length + 1) i) = true := by
          simp only [PMFFragmenter.endsAtCut, e]; exact hcut
        by_cases h0 : 0 < length + sf.length
        · have hk : g.moreThanCleavageChar sequence (Peak.mk (mass + sf.mass +
              sf.cleavage_char_mass) start (length + sf.length + 1) i) = true := by
            simp only [PMFFragmenter.moreThanCleavageChar, hends]
            simpa using h0
          simp only [emit, gt_iff_lt, Nat.succ_pos, if_true, h0, List.filter_cons, hk,
            List.filter_nil]
          refine List.Forall₂.cons ⟨rfl, rfl, ?_⟩ List.Forall₂.nil
          rw [if_pos hends]
          refine ⟨?_, rfl⟩
          show mass + sf.mass + sf.cleavage_char_mass =
            mass + sf.mass + g.alphabet (charAt sequence (start + (length + sf.length + 1) - 1))
          rw [e, hccm]
        · have hk : g.moreThanCleavageChar sequence (Peak.mk (mass + sf.mass +
              sf.cleavage_char_mass) start (length + sf.length + 1) i) = false := by
            simp only [PMFFragmenter.moreThanCleavageChar, hends]
            simpa using h0
          simp only [emit, gt_iff_lt, Nat.succ_pos, if_true, h0, if_false, List.filter_cons, hk,
            List.filter_nil]
          exact List.Forall₂.nil
      · rw [hcl]
        apply ih
        have e : start + (length + sf.length + 1) = start + length + sf.length + 1 := by omega
        rw [e]; exact hrest
    · subst hnil
      simp only [PMFFragmenter.step2_inner, List.filter_nil, List.append_nil]
      rw [hpT, hpF, hcl, hccm]
      have h0 : 0 < length + sf.length := by omega
      have hends : g.endsAtCut sequence (Peak.mk (mass + sf.mass + 0) start
          (length + sf.length + 0) i) = false := by
        simp only [PMFFragmenter.endsAtCut]
        exact hnc _ (by omega) (by omega)
      have hk : g.moreThanCleavageChar sequence (Peak.mk (mass + sf.mass + 0) start
          (length + sf.length + 0) i) = true := by
        simp only [PMFFragmenter.moreThanCleavageChar, hends]
        rfl
      have h0' : 0 < length + sf.length + 0 := h0
      simp only [emit, gt_iff_lt, h0, h0', if_true, List.filter_cons, hk, List.filter_nil]
      refine List.Forall₂.cons ⟨rfl, rfl, ?_⟩ List.Forall₂.nil
      rw [if_neg (by rw [hends]; simp)]
      exact ⟨by simp, rfl⟩

theorem step2_toggle (g g' : PMFFragmenter M) (hT : g.withCleave = true)
    (hF : g'.withCleave = false) (hm : g'.max_miscleaves = g.max_miscleaves)
    (sequence : List Char) (its : List (subfragment_t M)) :
    ∀ pos : Nat, g.Chain sequence pos its →
      List.Forall₂ (g.Toggled sequence) (g'.step2 its [])
        ((g.step2 its []).filter (g.moreThanCleavageChar sequence)) := by
  induction its with
  | nil => intro pos _; simp [PMFFragmenter.step2]
  | cons sf rest ih =>
    intro pos hch
    rw [step2_cons, step2_cons, List.filter_append]
    apply List.rel_append
    · have hs : sf.start = pos := by
        simp only [PMFFragmenter.Chain] at hch
        rcases hch with ⟨h, _⟩ | ⟨h, _⟩ <;> exact h.1
      exact step2_inner_toggle g g' hT hF hm sequence sf.start (sf :: rest) 0 0 0
        (by rw [hs]; exact hch)
    · simp only [PMFFragmenter.Chain] at hch
      rcases hch with ⟨_, hrest⟩ | ⟨_, hnil⟩
      · exact ih _ hrest
      · subst hnil
        simp [PMFFragmenter.step2]

theorem charAt_mem (sequence : List Char) (i : Nat) (h : i < sequence.length) :
    charAt sequence i ∈ sequence := by
  rw [charAt, List.getD_eq_getElem?_getD, List.getElem?_eq_getElem h]
  exact List.getElem_mem h

theorem charAt_succ_mem_tail (sequence : List Char) (i : Nat) (h : i + 1 < sequence.length) :
    charAt sequence (i + 1) ∈ sequence.tail := by
  cases sequence with
  | nil => simp at h
  | cons c rest =>
    have h' : i < rest.length := by simpa using h
    have := charAt_mem rest i h'
    simpa [charAt] using this

theorem cleave_here_of_prohibited {N : Type} (g : PMFFragmenter N) (sequence : List Char) (i : Nat)
    (h : i + 1 < sequence.length) (hp : charAt sequence (i + 1) ∈ g.prohibition_characters) :
    g.cleave_here sequence i = false := by
  simp [PMFFragmenter.cleave_here, h, hp]

theorem cleave_here_of_not_cleavage {N : Type} (g : PMFFragmenter N) (sequence : List Char) (i : Nat)
    (hc : charAt sequence i ∉ g.cleavage_characters) :
    g.cleave_here sequence i = false := by
  simp [PMFFragmenter.cleave_here, hc]

theorem cleave_here_of_cleavage {N : Type} (g : PMFFragmenter N) (sequence : List Char) (i : Nat)
    (hc : charAt sequence i ∈ g.cleavage_characters)
    (hp : i + 1 < sequence.length → charAt sequence (i + 1) ∉ g.prohibition_characters) :
    g.cleave_here sequence i = true := by
  by_cases h : i + 1 < sequence.length
  · simp [PMFFragmenter.cleave_here, hc, h, hp h]
  · simp [PMFFragmenter.cleave_here, hc, h]

theorem chain_start (g : PMFFragmenter M) (sequence : List Char) (pos : Nat) (sf : subfragment_t M)
    (rest : List (subfragment_t M)) (h : g.Chain sequence pos (sf :: rest)) : sf.start = pos := by
  simp only [PMFFragmenter.Chain] at h
  rcases h with ⟨h, _⟩ | ⟨h, _⟩ <;> exact h.1

/-- Every fragment starts at the head of the chain or right after a character after which the
sequence is cut. -/
theorem step2_start (g : PMFFragmenter M) (sequence : List Char) (its : List (subfragment_t M)) :
    ∀ pos : Nat, g.Chain sequence pos its →
      ∀ p ∈ g.step2 its [],
        p.start = pos ∨ ∃ q, pos ≤ q ∧ g.cleave_here sequence q = true ∧ p.start = q + 1 := by
  induction its with
  | nil => intro pos _ p hp; simp [PMFFragmenter.step2] at hp
  | cons sf rest ih =>
    intro pos hch p hp
    rw [step2_cons] at hp
    rcases List.mem_append.1 hp with hp | hp
    · have hs := chain_start g sequence pos sf rest hch
      have := step2_inner_covers g sequence sf.start (sf :: rest) 0 0 0
        (by rw [hs]; exact hch) (sumMass_zero g sequence sf.start).symm p hp
      exact Or.inl (this.1.trans hs)
    · simp only [PMFFragmenter.Chain] at hch
      rcases hch with ⟨hsf, hrest⟩ | ⟨_, hnil⟩
      · rcases ih _ hrest p hp with h | ⟨q, hq, hcut, hpq⟩
        · exact Or.inr ⟨pos + sf.length, by omega, hsf.2.2.2.2.1, h⟩
        · exact Or.inr ⟨q, by omega, hcut, hpq⟩
      · subst hnil
        simp [PMFFragmenter.step2] at hp

/-- When the sequence is cut after every character, with the cleavage characters included and no
miscleavage allowed, STEP 2 emits one fragment of length 1 per remaining character. -/
theorem step2_all_cut (g : PMFFragmenter M) (hw : g.withCleave = true)
    (hm : g.max_miscleaves = 0) (sequence : List Char)
    (hcut : ∀ q, q < sequence.length → g.cleave_here sequence q = true)
    (its : List (subfragment_t M)) :
    ∀ pos : Nat, g.Chain sequence pos its →
      (g.step2 its []).length + pos = sequence.length ∧
        ∀ p ∈ g.step2 its [], p.length = 1 ∧ p.mass = g.alphabet (charAt sequence p.start) := by
  induction its with
  | nil =>
    intro pos hch
    simp only [PMFFragmenter.Chain] at hch
    simp [PMFFragmenter.step2, hch]
  | cons sf rest ih =>
    intro pos hch
    simp only [PMFFragmenter.Chain] at hch
    rcases hch with ⟨⟨hs, hmass, hnc, hcl, _, hlt, hccm⟩, hrest⟩ | ⟨⟨_, _, hnc, _, _, hpos, hend⟩, _⟩
    · have hlen : sf.length = 0 := by
        by_contra h0
        have h1 := hnc pos le_rfl (by omega)
        rw [hcut pos (by omega)] at h1
        exact Bool.false_ne_true h1.symm
      have hpk : g.peakAt sf.start sf 0 0 0 =
          Peak.mk (g.alphabet (charAt sequence pos)) pos 1 0 := by
        simp [PMFFragmenter.peakAt, hw, hs, hmass, hlen, hcl, hccm, sumMass_zero]
      rw [step2_cons, step2_inner_cons, if_pos (Nat.zero_le _),
        step2_inner_beyond g _ rest (0 + 1) _ _ (by omega), hpk]
      obtain ⟨ihlen, ihmem⟩ := ih _ hrest
      constructor
      · simp only [emit, gt_iff_lt, Nat.lt_one_iff, Nat.zero_lt_one, if_true, List.append_nil,
          List.cons_append, List.nil_append, List.length_cons]
        omega
      · intro p hp
        simp only [emit, gt_iff_lt, Nat.zero_lt_one, if_true, List.append_nil,
          List.cons_append, List.nil_append, List.mem_cons] at hp
        rcases hp with rfl | hp
        · exact ⟨rfl, rfl⟩
        · exact ihmem p hp
    · have h1 := hnc pos le_rfl (by omega)
      rw [hcut pos (by omega)] at h1
      exact absurd h1.symm Bool.false_ne_true

theorem step2_inner_bounds (g : PMFFragmenter M) (sequence : List Char) (start : Nat)
    (its : List (subfragment_t M)) :
    ∀ (i length : Nat) (mass : M), g.Chain sequence (start + length) its →
      ∀ p ∈ g.step2_inner start its i length mass [],
        p.start = start ∧ i ≤ p.miscleavage_count ∧
          length + (if g.withCleave then 1 else 0) ≤ p.length := by
  induction its with
  | nil => intro i length mass _ p hp; simp [PMFFragmenter.step2_inner] at hp
  | cons sf rest ih =>
    intro i length mass hch p hp
    rw [step2_inner_cons] at hp
    split at hp
    swap
    · simp at hp
    simp only [PMFFragmenter.Chain] at hch
    rcases List.mem_append.1 hp with hp | hp
    · obtain ⟨rfl, _⟩ := (mem_emit _ _).1 hp
      have hpos : 0 < sf.length + sf.cleavage_length := by
        rcases hch with ⟨h, _⟩ | ⟨h, _⟩
        · have := h.2.2.2.1; omega
        · have := h.2.2.2.2.2.1; omega
      unfold PMFFragmenter.peakAt
      split_ifs
      · exact ⟨rfl, le_rfl, by simp only; omega⟩
      · exact ⟨rfl, le_rfl, by simp only; omega⟩
    · rcases hch with ⟨h, hrest⟩ | ⟨_, hnil⟩
      · have hcl := h.2.2.2.1
        have e : start + (length + sf.length + sf.cleavage_length) =
            start + length + sf.length + 1 := by omega
        obtain ⟨h1, h2, h3⟩ := ih (i + 1) _ _ (by rw [e]; exact hrest) p hp
        exact ⟨h1, by omega, by omega⟩
      · subst hnil
        simp [PMFFragmenter.step2_inner] at hp

theorem step2_inner_pairwise (g : PMFFragmenter M) (sequence : List Char) (start : Nat)
    (its : List (subfragment_t M)) :
    ∀ (i length : Nat) (mass : M), g.Chain sequence (start + length) its →
      List.Pairwise (fun p q : Peak M =>
          p.miscleavage_count < q.miscleavage_count ∧ p.length < q.length)
        (g.step2_inner start its i length mass []) := by
  induction its with
  | nil => intro i length mass _; simp [PMFFragmenter.step2_inner]
  | cons sf rest ih =>
    intro i length mass hch
    rw [step2_inner_cons]
    split
    swap
    · exact List.Pairwise.nil
    simp only [PMFFragmenter.Chain] at hch
    rcases hch with ⟨h, hrest⟩ | ⟨_, hnil⟩
    · have hcl := h.2.2.2.1
      have e : start + (length + sf.length + sf.cleavage_length) =
          start + length + sf.length + 1 := by omega
      have hch' : g.Chain sequence (start + (length + sf.length + sf.cleavage_length)) rest := by
        rw [e]; exact hrest
      rw [List.pairwise_append]
      refine ⟨?_, ih _ _ _ hch', ?_⟩
      · unfold emit; split_ifs <;> simp
      · intro a ha b hb
        obtain ⟨rfl, _⟩ := (mem_emit _ _).1 ha
        obtain ⟨_, h2, h3⟩ := step2_inner_bounds g sequence start rest (i + 1) _ _ hch' b hb
        unfold PMFFragmenter.peakAt
        split_ifs with hw
        · rw [if_pos hw] at h3
          exact ⟨by simp only; omega, by simp only; omega⟩
        · rw [if_neg hw] at h3
          exact ⟨by simp only; omega, by simp only; omega⟩
    · subst hnil
      simp only [PMFFragmenter.step2_inner, List.append_nil]
      unfold emit; split_ifs <;> simp

theorem step2_pairwise (g : PMFFragmenter M) (sequence : List Char)
    (its : List (subfragment_t M)) :
    ∀ pos : Nat, g.Chain sequence pos its → List.Pairwise occursBefore (g.step2 its []) := by
  induction its with
  | nil => intro pos _; simp [PMFFragmenter.step2]
  | cons sf rest ih =>
    intro pos hch
    have hs := chain_start g sequence pos sf rest hch
    have hch0 : g.Chain sequence (sf.start + 0) (sf :: rest) := by rw [hs]; exact hch
    rw [step2_cons, List.pairwise_append]
    refine ⟨?_, ?_, ?_⟩
    · refine List.Pairwise.imp_of_mem ?_
        (step2_inner_pairwise g sequence sf.start (sf :: rest) 0 0 0 hch0)
      intro a b ha hb hab
      have h1 := (step2_inner_bounds g sequence sf.start (sf :: rest) 0 0 0 hch0 a ha).1
      have h2 := (step2_inner_bounds g sequence sf.start (sf :: rest) 0 0 0 hch0 b hb).1
      exact Or.inr ⟨h1.trans h2.symm, hab⟩
    · simp only [PMFFragmenter.Chain] at hch
      rcases hch with ⟨_, hrest⟩ | ⟨_, hnil⟩
      · exact ih _ hrest
      · subst hnil; simp [PMFFragmenter.step2]
    · intro a ha b hb
      have h1 := (step2_inner_bounds g sequence sf.start (sf :: rest) 0 0 0 hch0 a ha).1
      simp only [PMFFragmenter.Chain] at hch
      rcases hch with ⟨_, hrest⟩ | ⟨_, hnil⟩
      · rcases step2_start g sequence rest _ hrest b hb with h | ⟨q, hq, _, hbq⟩
        · exact Or.inl (by omega)
        · exact Or.inl (by omega)
      · subst hnil; simp [PMFFragmenter.step2] at hb

theorem step2_inner_pos (g : PMFFragmenter M) (start : Nat) (its : List (subfragment_t M)) :
    ∀ (i length : Nat) (mass : M), ∀ p ∈ g.step2_inner start its i length mass [],
      0 < p.length := by
  induction its with
  | nil => intro i length mass p hp; simp [PMFFragmenter.step2_inner] at hp
  | cons sf rest ih =>
    intro i length mass p hp
    rw [step2_inner_cons] at hp
    split at hp
    swap
    · simp at hp
    rcases List.mem_append.1 hp with hp | hp
    · obtain ⟨rfl, h⟩ := (mem_emit _ _).1 hp
      exact h
    · exact ih _ _ _ p hp

theorem step2_pos (g : PMFFragmenter M) (its : List (subfragment_t M)) :
    ∀ p ∈ g.step2 its [], 0 < p.length := by
  induction its with
  | nil => intro p hp; simp [PMFFragmenter.step2] at hp
  | cons sf rest ih =>
    intro p hp
    rw [step2_cons] at hp
    rcases List.mem_append.1 hp with hp | hp
    · exact step2_inner_pos g _ _ _ _ _ p hp
    · exact ih p hp

theorem chain_length (g : PMFFragmenter M) (sequence : List Char)
    (its : List (subfragment_t M)) :
    ∀ pos : Nat, g.Chain sequence pos its → pos + its.length ≤ sequence.length := by
  induction its with
  | nil => intro pos h; simp only [PMFFragmenter.Chain] at h; simp [h]
  | cons sf rest ih =>
    intro pos h
    simp only [PMFFragmenter.Chain] at h
    rcases h with ⟨_, hrest⟩ | ⟨hrem, hnil⟩
    · have := ih _ hrest
      simp only [List.length_cons]
      omega
    · subst hnil
      have h1 := hrem.2.2.2.2.2.1
      have h2 := hrem.2.2.2.2.2.2
      simp only [List.length_cons, List.length_nil]
      omega

/-- Once max-miscleaves admits every subfragment up to the end of the list, the inner loop is
left by the `break` only and its result no longer depends on max-miscleaves. -/
theorem step2_inner_saturated (g g' : PMFFragmenter M) (hw : g'.withCleave = g.withCleave)
    (start : Nat) (its : List (subfragment_t M)) :
    ∀ (i length : Nat) (mass : M), i + its.length ≤ g.max_miscleaves + 1 →
      i + its.length ≤ g'.max_miscleaves + 1 →
      g'.step2_inner start its i length mass [] = g.step2_inner start its i length mass [] := by
  induction its with
  | nil => intro i length mass _ _; simp [PMFFragmenter.step2_inner]
  | cons sf rest ih =>
    intro i length mass h1 h2
    simp only [List.length_cons] at h1 h2
    have hpk : g'.peakAt start sf i length mass = g.peakAt start sf i length mass := by
      simp only [PMFFragmenter.peakAt, hw]
    rw [step2_inner_cons, step2_inner_cons, if_pos (by omega), if_pos (by omega), hpk,
      ih _ _ _ (by omega) (by omega)]

theorem step2_saturated (g g' : PMFFragmenter M) (hw : g'.withCleave = g.withCleave)
    (its : List (subfragment_t M)) :
    its.length ≤ g.max_miscleaves + 1 → its.length ≤ g'.max_miscleaves + 1 →
      g'.step2 its [] = g.step2 its [] := by
  induction its with
  | nil => intro _ _; simp [PMFFragmenter.step2]
  | cons sf rest ih =>
    intro h1 h2
    simp only [List.length_cons] at h1 h2
    rw [step2_cons, step2_cons,
      step2_inner_saturated g g' hw sf.start (sf :: rest) 0 0 0
        (by simp only [List.length_cons]; omega) (by simp only [List.length_cons]; omega),
      ih (by omega) (by omega)]

theorem step2_inner_length_le (g : PMFFragmenter M) (start : Nat)
    (its : List (subfragment_t M)) :
    ∀ (i length : Nat) (mass : M),
      (g.step2_inner start its i length mass []).length ≤ g.max_miscleaves + 1 - i := by
  induction its with
  | nil => intro i length mass; simp [PMFFragmenter.step2_inner]
  | cons sf rest ih =>
    intro i length mass
    rw [step2_inner_cons]
    split
    · have h1 := ih (i + 1) (length + sf.length + sf.cleavage_length)
        (mass + sf.mass + sf.cleavage_char_mass)
      have h2 : (emit (g.peakAt start sf i length mass)).length ≤ 1 := by
        unfold emit; split_ifs <;> simp
      rw [List.length_append]
      omega
    · simp

theorem step2_length_le (g : PMFFragmenter M) (its : List (subfragment_t M)) :
    (g.step2 its []).length ≤ its.length * (g.max_miscleaves + 1) := by
  induction its with
  | nil => simp [PMFFragmenter.step2]
  | cons sf rest ih =>
    rw [step2_cons, List.length_append, List.length_cons, Nat.succ_mul]
    have := step2_inner_length_le g sf.start (sf :: rest) 0 0 0
    omega

theorem step2_same_start (g : PMFFragmenter M) (sequence : List Char)
    (its : List (subfragment_t M)) :
    ∀ pos : Nat, g.Chain sequence pos its → ∀ s : Nat,
      ((g.step2 its []).filter (fun p => decide (p.start = s))).length ≤
        g.max_miscleaves + 1 := by
  induction its with
  | nil => intro pos _ s; simp [PMFFragmenter.step2]
  | cons sf rest ih =>
    intro pos hch s
    have hs := chain_start g sequence pos sf rest hch
    have hch0 : g.Chain sequence (sf.start + 0) (sf :: rest) := by rw [hs]; exact hch
    rw [step2_cons, List.filter_append, List.length_append]
    by_cases hsp : s = pos
    · have hrest : (g.step2 rest []).filter (fun p => decide (p.start = s)) = [] := by
        rw [List.filter_eq_nil_iff]
        intro b hb
        simp only [PMFFragmenter.Chain] at hch
        rcases hch with ⟨_, hr⟩ | ⟨_, hnil⟩
        · rcases step2_start g sequence rest _ hr b hb with h | ⟨q, hq, _, hbq⟩
          · simp only [decide_eq_true_eq]; omega
          · simp only [decide_eq_true_eq]; omega
        · subst hnil; simp [PMFFragmenter.step2] at hb
      rw [hrest, List.length_nil, Nat.add_zero]
      exact (List.length_filter_le _ _).trans (step2_inner_length_le g sf.start (sf :: rest) 0 0 0)
    · have hin : (g.step2_inner sf.start (sf :: rest) 0 0 0 []).filter
          (fun p => decide (p.start = s)) = [] := by
        rw [List.filter_eq_nil_iff]
        intro a ha
        have h1 := (step2_inner_bounds g sequence sf.start (sf :: rest) 0 0 0 hch0 a ha).1
        simp only [decide_eq_true_eq]
        omega
      rw [hin, List.length_nil, Nat.zero_add]
      simp only [PMFFragmenter.Chain] at hch
      rcases hch with ⟨_, hr⟩ | ⟨_, hnil⟩
      · exact ih _ hr s
      · subst hnil; simp [PMFFragmenter.step2]

theorem mergedFragmentsSpec_cons {N : Type} [Add N] [Zero N] (m : Nat) (f : Peak N) (F : List (Peak N)) :
    mergedFragmentsSpec m (f :: F) =
      (List.range (min m F.length + 1)).map (fun k =>
        Peak.mk (((f :: F).take (k + 1)).map Peak.mass).sum f.start
          (((f :: F).take (k + 1)).map Peak.length).sum k) ++ mergedFragmentsSpec m F := by
  simp only [mergedFragmentsSpec, List.length_cons, List.range_succ_eq_map, List.flatMap_cons,
    List.flatMap_map, List.drop_zero, List.drop_succ_cons, Nat.add_sub_cancel, Nat.sub_zero]
  congr 1
  congr 1
  funext j
  have e : F.length - (j + 1) = F.length - 1 - j := by omega
  simp only [Nat.succ_eq_add_one, e]

theorem chain_cons_pos (g : PMFFragmenter M) (sequence : List Char) (pos : Nat)
    (sf : subfragment_t M) (rest : List (subfragment_t M))
    (h : g.Chain sequence pos (sf :: rest)) : 0 < sf.length + sf.cleavage_length := by
  simp only [PMFFragmenter.Chain] at h
  rcases h with ⟨h, _⟩ | ⟨h, _⟩
  · have := h.2.2.2.1; omega
  · have := h.2.2.2.2.2.1; omega

theorem chain_tail (g : PMFFragmenter M) (sequence : List Char) (pos : Nat)
    (sf : subfragment_t M) (rest : List (subfragment_t M))
    (h : g.Chain sequence pos (sf :: rest)) :
    g.Chain sequence (pos + sf.length + sf.cleavage_length) rest := by
  simp only [PMFFragmenter.Chain] at h
  rcases h with ⟨h, hrest⟩ | ⟨h, hnil⟩
  · rw [h.2.2.2.1]; exact hrest
  · subst hnil
    simp only [PMFFragmenter.Chain]
    have h1 := h.2.2.2.1
    have h2 := h.2.2.2.2.2.2
    omega

/-- With the cleavage characters included, the inner loop of STEP 2 emits, for
`k = 0, 1, ...` while `i + k` is at most max-miscleaves and subfragments remain, the running
totals plus the fully cleaved fragments of the next `k + 1` subfragments. -/
theorem step2_inner_merges (g : PMFFragmenter M) (hw : g.withCleave = true)
    (sequence : List Char) (start : Nat) (its : List (subfragment_t M)) :
    ∀ (i length : Nat) (mass : M), g.Chain sequence (start + length) its →
      g.step2_inner start its i length mass [] =
        (List.range (min (g.max_miscleaves + 1 - i) its.length)).map (fun k =>
          Peak.mk (mass + (((its.map fullyCleaved).take (k + 1)).map Peak.mass).sum) start
            (length + (((its.map fullyCleaved).take (k + 1)).map Peak.length).sum) (i + k)) := by
  induction its with
  | nil => intro i length mass _; simp [PMFFragmenter.step2_inner]
  | cons sf rest ih =>
    intro i length mass hch
    have hpos := chain_cons_pos g sequence _ sf rest hch
    have hrest := chain_tail g sequence _ sf rest hch
    have e : start + length + sf.length + sf.cleavage_length =
        start + (length + sf.length + sf.cleavage_length) := by omega
    rw [e] at hrest
    rw [step2_inner_cons]
    split
    · rename_i hi
      have hmin : min (g.max_miscleaves + 1 - i) (sf :: rest).length =
          min (g.max_miscleaves + 1 - (i + 1)) rest.length + 1 := by
        simp only [List.length_cons]; omega
      have hpk : emit (g.peakAt start sf i length mass) =
          [Peak.mk (mass + sf.mass + sf.cleavage_char_mass) start
            (length + sf.length + sf.cleavage_length) i] := by
        have h0 : 0 < length + sf.length + sf.cleavage_length := by omega
        simp [emit, PMFFragmenter.peakAt, hw, h0]
      rw [hmin, List.range_succ_eq_map, ih _ _ _ hrest, hpk, List.map_cons, List.map_map]
      simp only [List.singleton_append, List.map_cons, List.take_succ_cons, List.sum_cons,
        fullyCleaved, List.take_zero, List.map_nil, List.sum_nil, add_zero, zero_add,
        Nat.add_zero, Nat.zero_add, add_assoc, Nat.add_assoc, Function.comp, Nat.succ_eq_add_one]
      congr 1
      apply List.map_congr_left
      intro k _
      congr 1
      omega
    · rename_i hi
      have hmin : min (g.max_miscleaves + 1 - i) (sf :: rest).length = 0 := by
        simp only [List.length_cons]; omega
      rw [hmin]; rfl

theorem step2_fully_cleaved (g : PMFFragmenter M) (hw : g.withCleave = true)
    (hm : g.max_miscleaves = 0) (sequence : List Char) (its : List (subfragment_t M)) :
    ∀ pos : Nat, g.Chain sequence pos its → g.step2 its [] = its.map fullyCleaved := by
  induction its with
  | nil => intro pos _; simp [PMFFragmenter.step2]
  | cons sf rest ih =>
    intro pos hch
    have hpos := chain_cons_pos g sequence _ sf rest hch
    have hpk : emit (g.peakAt sf.start sf 0 0 0) = [fullyCleaved sf] := by
      have h0 : 0 < 0 + sf.length + sf.cleavage_length := by omega
      simp only [emit, PMFFragmenter.peakAt, hw, if_true, gt_iff_lt, h0, fullyCleaved]
    rw [step2_cons, step2_inner_cons, if_pos (Nat.zero_le _),
      step2_inner_beyond g _ rest (0 + 1) _ _ (by omega), hpk,
      ih _ (chain_tail g sequence _ sf rest hch)]
    rfl

theorem step2_merges (g : PMFFragmenter M) (hw : g.withCleave = true)
    (sequence : List Char) (its : List (subfragment_t M)) :
    ∀ pos : Nat, g.Chain sequence pos its →
      g.step2 its [] = mergedFragmentsSpec g.max_miscleaves (its.map fullyCleaved) := by
  induction its with
  | nil => intro pos _; simp [PMFFragmenter.step2, mergedFragmentsSpec]
  | cons sf rest ih =>
    intro pos hch
    have hch0 : g.Chain sequence (sf.start + 0) (sf :: rest) := by
      rw [chain_start g sequence pos sf rest hch]; exact hch
    have hmin : min (g.max_miscleaves + 1 - 0) (sf :: rest).length =
        min g.max_miscleaves (rest.map fullyCleaved).length + 1 := by
      simp only [List.length_cons, List.length_map]; omega
    rw [step2_cons, List.map_cons, mergedFragmentsSpec_cons,
      step2_inner_merges g hw sequence sf.start (sf :: rest) 0 0 0 hch0, hmin,
      ih _ (chain_tail g sequence _ sf rest hch)]
    congr 1
    apply List.map_congr_left
    intro k _
    simp only [zero_add, Nat.zero_add, List.map_cons]
    rfl

theorem charAt_last (sequence : List Char) (hne : sequence ≠ []) :
    charAt sequence (sequence.length - 1) = sequence.getLast hne := by
  have hlt : sequence.length - 1 < sequence.length :=
    Nat.sub_lt (List.length_pos.2 hne) Nat.one_pos
  rw [charAt, List.getD_eq_getElem?_getD, List.getElem?_eq_getElem hlt, List.getLast_eq_getElem]
  rfl

/-- Without the cleavage characters, when the sequence is cut after its last character, no
fragment of the inner loop of STEP 2 reaches that character. -/
theorem step2_inner_excludes_last (g : PMFFragmenter M) (hw : g.withCleave = false)
    (sequence : List Char) (hpos : 0 < sequence.length)
    (hlast : g.cleave_here sequence (sequence.length - 1) = true) (start : Nat)
    (its : List (subfragment_t M)) :
    ∀ (i length : Nat) (mass : M), g.Chain sequence (start + length) its →
      ∀ p ∈ g.step2_inner start its i length mass [],
        p.start = start ∧ start + p.length < sequence.length := by
  induction its with
  | nil => intro i length mass _ p hp; simp [PMFFragmenter.step2_inner] at hp
  | cons sf rest ih =>
    intro i length mass hch p hp
    rw [step2_inner_cons] at hp
    split at hp
    swap
    · simp at hp
    simp only [PMFFragmenter.Chain] at hch
    rcases hch with ⟨⟨_, _, _, hcl, _, hlt, _⟩, hrest⟩ | ⟨⟨_, _, hnc, _, _, hlen, hend⟩, _⟩
    · rcases List.mem_append.1 hp with hp | hp
      · obtain ⟨rfl, _⟩ := (mem_emit _ _).1 hp
        have hpk : g.peakAt start sf i length mass =
            Peak.mk (mass + sf.mass) start (length + sf.length) i := by
          simp [PMFFragmenter.peakAt, hw]
        rw [hpk]
        exact ⟨rfl, by simp only; omega⟩
      · refine ih _ _ _ ?_ p hp
        rw [hcl]
        have e : start + (length + sf.length + 1) = start + length + sf.length + 1 := by omega
        rw [e]; exact hrest
    · have h1 := hnc (sequence.length - 1) (by omega) (by omega)
      rw [hlast] at h1
      exact absurd h1.symm Bool.false_ne_true

theorem step2_excludes_last (g : PMFFragmenter M) (hw : g.withCleave = false)
    (sequence : List Char) (hpos : 0 < sequence.length)
    (hlast : g.cleave_here sequence (sequence.length - 1) = true)
    (its : List (subfragment_t M)) :
    ∀ pos : Nat, g.Chain sequence pos its →
      ∀ p ∈ g.step2 its [], p.start + p.length < sequence.length := by
  induction its with
  | nil => intro pos _ p hp; simp [PMFFragmenter.step2] at hp
  | cons sf rest ih =>
    intro pos hch p hp
    rw [step2_cons] at hp
    rcases List.mem_append.1 hp with hp | hp
    · have hch0 : g.Chain sequence (sf.start + 0) (sf :: rest) := by
        rw [chain_start g sequence pos sf rest hch]; exact hch
      have := step2_inner_excludes_last g hw sequence hpos hlast sf.start (sf :: rest) 0 0 0
        hch0 p hp
      rw [this.1]
      exact this.2
    · exact ih _ (chain_tail g sequence _ sf rest hch) p hp

theorem fullyCleaved_mass (g : PMFFragmenter M) (sequence : List Char) (pos : Nat)
    (sf : subfragment_t M) (rest : List (subfragment_t M))
    (h : g.Chain sequence pos (sf :: rest)) :
    (fullyCleaved sf).mass = g.sumMass sequence pos (sf.length + sf.cleavage_length) := by
  simp only [PMFFragmenter.Chain] at h
  rcases h with ⟨⟨_, hm, _, hcl, _, hlt, hccm⟩, _⟩ | ⟨⟨_, hm, _, hcl, hccm, _, _⟩, _⟩
  · rw [hcl, sumMass_succ g sequence pos sf.length hlt, ← hm, ← hccm]
    simp [fullyCleaved]
  · rw [hcl, Nat.add_zero, ← hm]
    simp [fullyCleaved, hccm]

/-- The fully cleaved fragments of a chain of subfragments tile the sequence from the start of
the chain to the end of the sequence. -/
theorem fullyCleaved_tiles (g : PMFFragmenter M) (sequence : List Char)
    (its : List (subfragment_t M)) :
    ∀ pos : Nat, g.Chain sequence pos its →
      (∀ p ∈ (its.map fullyCleaved).head?, p.start = pos) ∧
      List.Chain' (fun p q : Peak M => q.start = p.start + p.length) (its.map fullyCleaved) ∧
      (∀ p ∈ (its.map fullyCleaved).getLast?, p.start + p.length = sequence.length) ∧
      ((its.map fullyCleaved).map Peak.length).sum + pos = sequence.length ∧
      ((its.map fullyCleaved).map Peak.mass).sum =
        g.sumMass sequence pos (sequence.length - pos) := by
  induction its with
  | nil =>
    intro pos h
    simp only [PMFFragmenter.Chain] at h
    simp [h, sumMass_zero]
  | cons sf rest ih =>
    intro pos hch
    have hs := chain_start g sequence pos sf rest hch
    have htail := chain_tail g sequence pos sf rest hch
    have hmass := fullyCleaved_mass g sequence pos sf rest hch
    have hle := chain_length g sequence rest _ htail
    obtain ⟨ihhead, ihchain, ihlast, ihlen, ihmass⟩ := ih _ htail
    have hend : (fullyCleaved sf).start + (fullyCleaved sf).length =
        pos + sf.length + sf.cleavage_length := by
      simp only [fullyCleaved, hs]; omega
    refine ⟨?_, ?_, ?_, ?_, ?_⟩
    · intro p hp
      simp only [List.map_cons, List.head?_cons, Option.mem_def, Option.some.injEq] at hp
      rw [← hp]; exact hs
    · rw [List.map_cons, List.chain'_cons']
      refine ⟨?_, ihchain⟩
      intro y hy
      rw [ihhead y hy, hend]
    · intro p hp
      cases rest with
      | nil =>
        simp only [List.map_cons, List.map_nil, List.getLast?_singleton, Option.mem_def,
          Option.some.injEq] at hp
        simp only [PMFFragmenter.Chain] at htail
        rw [← hp, hend, htail]
      | cons sf' rest' =>
        simp only [List.map_cons, List.getLast?_cons_cons] at hp
        exact ihlast p (by simpa using hp)
    · simp only [List.map_cons, List.sum_cons]
      have : (fullyCleaved sf).length = sf.length + sf.cleavage_length := by
        simp only [fullyCleaved]; omega
      omega
    · simp only [List.map_cons, List.sum_cons]
      rw [ihmass, hmass]
      have e : (sf.length + sf.cleavage_length) +
          (sequence.length - (pos + sf.length + sf.cleavage_length)) = sequence.length - pos := by
        omega
      have e2 : pos + (sf.length + sf.cleavage_length) = pos + sf.length + sf.cleavage_length := by
        omega
      have key := sumMass_add g sequence pos (sf.length + sf.cleavage_length)
        (sequence.length - (pos + sf.length + sf.cleavage_length))
      rw [e, e2] at key
      exact key.symm

theorem isCutPosition_eq_cleave_here {N : Type} (g : PMFFragmenter N) (sequence : List Char)
    (p : Nat) (hp : p < sequence.length) :
    isCutPosition g.cleavage_characters g.prohibition_characters sequence p =
      g.cleave_here sequence p := by
  by_cases h1 : p + 1 < sequence.length
  · have h2 : ¬ p + 1 = sequence.length := by omega
    by_cases hc : charAt sequence p ∈ g.cleavage_characters <;>
    simp [isCutPosition, PMFFragmenter.cleave_here, hp, h1, h2, hc]
  · have h2 : p + 1 = sequence.length := by omega
    by_cases hc : charAt sequence p ∈ g.cleavage_characters <;>
    simp [isCutPosition, PMFFragmenter.cleave_here, hp, h1, h2, hc]

theorem cutCount_add (cc pc : List Char) (sequence : List Char) (a n k : Nat) :
    cutCount cc pc sequence a (n + k) =
      cutCount cc pc sequence a n + cutCount cc pc sequence (a + n) k := by
  have h := List.range'_append a n k 1
  rw [Nat.one_mul] at h
  simp only [cutCount]
  rw [Nat.add_comm n k, ← h, List.countP_append]

theorem cutCount_none {N : Type} (g : PMFFragmenter N) (sequence : List Char) (a n : Nat)
    (hle : a + n ≤ sequence.length)
    (h : ∀ p, a ≤ p → p < a + n → g.cleave_here sequence p = false) :
    cutCount g.cleavage_characters g.prohibition_characters sequence a n = 0 := by
  simp only [cutCount, List.countP_eq_zero, List.mem_range'_1]
  intro p hp
  rw [isCutPosition_eq_cleave_here g sequence p (by omega), h p hp.1 hp.2]
  exact Bool.false_ne_true

theorem cutCount_one {N : Type} (g : PMFFragmenter N) (sequence : List Char) (a : Nat)
    (hlt : a < sequence.length) (h : g.cleave_here sequence a = true) :
    cutCount g.cleavage_characters g.prohibition_characters sequence a 1 = 1 := by
  simp [cutCount, isCutPosition_eq_cleave_here g sequence a hlt, h]

/-- The counter of the inner loop of STEP 2 is the number of cut positions passed so far, so the
miscleavage count of an emitted fragment is the number of cut positions inside it. -/
theorem step2_inner_cuts (g : PMFFragmenter M) (sequence : List Char) (start : Nat)
    (its : List (subfragment_t M)) :
    ∀ (i length : Nat) (mass : M), g.Chain sequence (start + length) its →
      i = cutCount g.cleavage_characters g.prohibition_characters sequence start length →
      ∀ p ∈ g.step2_inner start its i length mass [],
        p.miscleavage_count ≤ g.max_miscleaves ∧
          p.miscleavage_count = cutCount g.cleavage_characters g.prohibition_characters sequence
            start (if g.withCleave then p.length - 1 else p.length) := by
  induction its with
  | nil => intro i length mass _ _ p hp; simp [PMFFragmenter.step2_inner] at hp
  | cons sf rest ih =>
    intro i length mass hch hi p hp
    rw [step2_inner_cons] at hp
    split at hp
    swap
    · simp at hp
    rename_i hle
    simp only [PMFFragmenter.Chain] at hch
    rcases hch with ⟨⟨_, _, hnc, hcl, hcut, hlt, _⟩, hrest⟩ | ⟨⟨_, _, hnc, hcl, _, hpos, hend⟩, hnil⟩
    · have hmid : cutCount g.cleavage_characters g.prohibition_characters sequence start
          (length + sf.length) = i := by
        rw [cutCount_add, ← hi, cutCount_none g sequence (start + length) sf.length (by omega) hnc]
        rfl
      rcases List.mem_append.1 hp with hp | hp
      · obtain ⟨rfl, _⟩ := (mem_emit _ _).1 hp
        unfold PMFFragmenter.peakAt
        split_ifs with hw
        · refine ⟨hle, ?_⟩
          simp only [hw, if_true, hcl, Nat.add_sub_cancel]
          exact hmid.symm
        · refine ⟨hle, ?_⟩
          simp only [hw, Bool.false_eq_true, if_false]
          exact hmid.symm
      · refine ih _ _ _ ?_ ?_ p hp
        · rw [hcl]
          have e : start + (length + sf.length + 1) = start + length + sf.length + 1 := by omega
          rw [e]; exact hrest
        · rw [hcl, cutCount_add, hmid,
            cutCount_one g sequence (start + (length + sf.length)) (by omega)
              (by rw [← Nat.add_assoc]; exact hcut)]
    · subst hnil
      rcases List.mem_append.1 hp with hp | hp
      · obtain ⟨rfl, _⟩ := (mem_emit _ _).1 hp
        unfold PMFFragmenter.peakAt
        split_ifs with hw
        · refine ⟨hle, ?_⟩
          simp only [hw, if_true, hcl, Nat.add_zero]
          have e : length + sf.length - 1 = length + (sf.length - 1) := by omega
          rw [e, cutCount_add, ← hi,
            cutCount_none g sequence (start + length) (sf.length - 1) (by omega)
              (fun q h1 h2 => hnc q h1 (by omega))]
          rfl
        · refine ⟨hle, ?_⟩
          simp only [hw, Bool.false_eq_true, if_false]
          rw [cutCount_add, ← hi,
            cutCount_none g sequence (start + length) sf.length (by omega) hnc]
          rfl
      · simp [PMFFragmenter.step2_inner] at hp

theorem step2_cuts (g : PMFFragmenter M) (sequence : List Char) (its : List (subfragment_t M)) :
    ∀ pos : Nat, g.Chain sequence pos its →
      ∀ p ∈ g.step2 its [],
        p.miscleavage_count ≤ g.max_miscleaves ∧
          p.miscleavage_count = cutCount g.cleavage_characters g.prohibition_characters sequence
            p.start (if g.withCleave then p.length - 1 else p.length) := by
  induction its with
  | nil => intro pos _ p hp; simp [PMFFragmenter.step2] at hp
  | cons sf rest ih =>
    intro pos hch p hp
    rw [step2_cons] at hp
    rcases List.mem_append.1 hp with hp | hp
    · have hch0 : g.Chain sequence (sf.start + 0) (sf :: rest) := by
        rw [chain_start g sequence pos sf rest hch]; exact hch
      have hst := (step2_inner_bounds g sequence sf.start (sf :: rest) 0 0 0 hch0 p hp).1
      have := step2_inner_cuts g sequence sf.start (sf :: rest) 0 0 0 hch0
        (by simp [cutCount]) p hp
      rw [hst]
      exact this
    · exact ih _ (chain_tail g sequence _ sf rest hch) p hp

/-! ### What does not depend on the mass type

Two generators with the same cleavage characters, prohibition characters, inclusion flag and
max-miscleaves, over any two mass types and alphabets, emit fragments with the same start
offsets, lengths and miscleavage counts. -/

theorem cleave_here_congr {N N' : Type} (g : PMFFragmenter N) (h : PMFFragmenter N')
    (hcc : g.cleavage_characters = h.cleavage_characters)
    (hpc : g.prohibition_characters = h.prohibition_characters) (sequence : List Char) (i : Nat) :
    g.cleave_here sequence i = h.cleave_here sequence i := by
  simp only [PMFFragmenter.cleave_here, hcc, hpc]

theorem step1_loop_shape {N N' : Type} [Add N] [Zero N] [Add N'] [Zero N']
    (g : PMFFragmenter N) (h : PMFFragmenter N')
    (hcc : g.cleavage_characters = h.cleavage_characters)
    (hpc : g.prohibition_characters = h.prohibition_characters) (sequence : List Char) :
    ∀ n : Nat, (g.step1_loop sequence n).1.shape = (h.step1_loop sequence n).1.shape ∧
      (g.step1_loop sequence n).2.map subfragment_t.shape =
        (h.step1_loop sequence n).2.map subfragment_t.shape := by
  intro n
  induction n with
  | zero => exact ⟨rfl, rfl⟩
  | succ n ih =>
    rw [step1_loop_succ, step1_loop_succ]
    have hc := cleave_here_congr g h hcc hpc sequence n
    generalize g.step1_loop sequence n = st at ih
    generalize h.step1_loop sequence n = st' at ih
    obtain ⟨cur, acc⟩ := st
    obtain ⟨cur', acc'⟩ := st'
    obtain ⟨h1, h2⟩ := ih
    simp only [subfragment_t.shape, Prod.mk.injEq] at h1
    obtain ⟨hl, hcl, hs⟩ := h1
    simp only at h2
    by_cases hcut : h.cleave_here sequence n = true
    · simp [PMFFragmenter.step1_body, hc, hcut, subfragment_t.shape, h2, hl, hs]
    · simp [PMFFragmenter.step1_body, hc, hcut, subfragment_t.shape, h2, hl, hcl, hs]

theorem step1_shape {N N' : Type} [Add N] [Zero N] [Add N'] [Zero N']
    (g : PMFFragmenter N) (h : PMFFragmenter N')
    (hcc : g.cleavage_characters = h.cleavage_characters)
    (hpc : g.prohibition_characters = h.prohibition_characters) (sequence : List Char) :
    (g.step1 sequence).map subfragment_t.shape = (h.step1 sequence).map subfragment_t.shape := by
  obtain ⟨h1, h2⟩ := step1_loop_shape g h hcc hpc sequence sequence.length
  have hl : (g.step1_loop sequence sequence.length).1.length =
      (h.step1_loop sequence sequence.length).1.length := congrArg Prod.fst h1
  simp only [PMFFragmenter.step1, hl]
  split
  · rw [List.map_append, List.map_append, h2, List.map_singleton, List.map_singleton, h1]
  · exact h2

theorem emit_shape {N N' : Type} (p : Peak N) (q : Peak N') (hpq : p.shape = q.shape) :
    (emit p).map Peak.shape = (emit q).map Peak.shape := by
  have hl : p.length = q.length := congrArg (fun t => t.2.1) hpq
  unfold emit
  rw [hl]
  split_ifs
  · simp [hpq]
  · rfl

theorem step2_inner_shape {N N' : Type} [Add N] [Zero N] [Add N'] [Zero N']
    (g : PMFFragmenter N) (h : PMFFragmenter N') (hw : g.withCleave = h.withCleave)
    (hm : g.max_miscleaves = h.max_miscleaves) (start : Nat) (its : List (subfragment_t N)) :
    ∀ (its' : List (subfragment_t N')) (i length : Nat) (mass : N) (mass' : N'),
      its.map subfragment_t.shape = its'.map subfragment_t.shape →
      (g.step2_inner start its i length mass []).map Peak.shape =
        (h.step2_inner start its' i length mass' []).map Peak.shape := by
  induction its with
  | nil =>
    intro its' i length mass mass' hs
    have : its' = [] := by simpa using hs.symm
    subst this
    rfl
  | cons sf rest ih =>
    intro its' i length mass mass' hs
    cases its' with
    | nil => simp at hs
    | cons sf' rest' =>
      simp only [List.map_cons, List.cons.injEq] at hs
      obtain ⟨hsf, hrest⟩ := hs
      simp only [subfragment_t.shape, Prod.mk.injEq] at hsf
      obtain ⟨hl, hcl, _⟩ := hsf
      rw [step2_inner_cons, step2_inner_cons, hm]
      split
      · rw [List.map_append, List.map_append, hl, hcl,
          ih rest' (i + 1) _ _ (mass' + sf'.mass + sf'.cleavage_char_mass) hrest]
        congr 1
        apply emit_shape
        simp only [PMFFragmenter.peakAt, hw, hl, hcl]
        split_ifs <;> rfl
      · rfl

theorem step2_shape {N N' : Type} [Add N] [Zero N] [Add N'] [Zero N']
    (g : PMFFragmenter N) (h : PMFFragmenter N') (hw : g.withCleave = h.withCleave)
    (hm : g.max_miscleaves = h.max_miscleaves) (its : List (subfragment_t N)) :
    ∀ its' : List (subfragment_t N'),
      its.map subfragment_t.shape = its'.map subfragment_t.shape →
      (g.step2 its []).map Peak.shape = (h.step2 its' []).map Peak.shape := by
  induction its with
  | nil =>
    intro its' hs
    have : its' = [] := by simpa using hs.symm
    subst this
    rfl
  | cons sf rest ih =>
    intro its' hs
    cases its' with
    | nil => simp at hs
    | cons sf' rest' =>
      have hs' := hs
      simp only [List.map_cons, List.cons.injEq] at hs'
      obtain ⟨hsf, hrest⟩ := hs'
      have hst : sf.start = sf'.start := congrArg (fun t => t.2.2) hsf
      rw [step2_cons, step2_cons, List.map_append, List.map_append, ih rest' hrest, hst,
        step2_inner_shape g h hw hm sf'.start (sf :: rest) (sf' :: rest') 0 0 0 0 hs]

/-- The start offsets, lengths and miscleavage counts of the emitted fragments are the same for
every mass type and alphabet. -/
theorem predictSpectrum_shape {N N' : Type} [Add N] [Zero N] [Add N'] [Zero N']
    (alphabet : Char → N) (alphabet' : Char → N') (cc pc : List Char) (wc : Bool) (m : Nat)
    (peaklist : List (Peak N)) (peaklist' : List (Peak N')) (sequence : List Char) :
    (((PMFFragmenter.new alphabet cc pc wc).setMaxMiscleaves m).predictSpectrum
        peaklist sequence).map Peak.shape =
      (((PMFFragmenter.new alphabet' cc pc wc).setMaxMiscleaves m).predictSpectrum
        peaklist' sequence).map Peak.shape := by
  rw [predictSpectrum_eq, predictSpectrum_eq]
  exact step2_shape ((PMFFragmenter.new alphabet cc pc wc).setMaxMiscleaves m)
    ((PMFFragmenter.new alphabet' cc pc wc).setMaxMiscleaves m) rfl rfl _ _
    (step1_shape ((PMFFragmenter.new alphabet cc pc wc).setMaxMiscleaves m)
      ((PMFFragmenter.new alphabet' cc pc wc).setMaxMiscleaves m) rfl rfl sequence)

theorem take_length_shape {N N' : Type} (F : List (Peak N)) (F' : List (Peak N'))
    (hs : F.map Peak.shape = F'.map Peak.shape) (k : Nat) :
    ((F.take k).map Peak.length).sum = ((F'.take k).map Peak.length).sum := by
  have e : ∀ {X : Type} (l : List (Peak X)),
      (l.take k).map Peak.length = ((l.map Peak.shape).take k).map (fun t => t.2.1) := by
    intro X l
    rw [← List.map_take, List.map_map]
    rfl
  rw [e F, e F', hs]

/-- The start offsets, lengths and miscleavage counts of the list the spec describes depend on
those of the fully cleaved list only. -/
theorem mergedFragmentsSpec_shape {N N' : Type} [Add N] [Zero N] [Add N'] [Zero N'] (m : Nat)
    (F : List (Peak N)) :
    ∀ F' : List (Peak N'), F.map Peak.shape = F'.map Peak.shape →
      (mergedFragmentsSpec m F).map Peak.shape = (mergedFragmentsSpec m F').map Peak.shape := by
  induction F with
  | nil =>
    intro F' hs
    have : F' = [] := by simpa using hs.symm
    subst this
    rfl
  | cons f rest ih =>
    intro F' hs
    cases F' with
    | nil => simp at hs
    | cons f' rest' =>
      have hs' := hs
      simp only [List.map_cons, List.cons.injEq] at hs'
      obtain ⟨hf, hrest⟩ := hs'
      have hst : f.start = f'.start := congrArg Prod.fst hf
      have hlen : rest.length = rest'.length := by
        simpa using congrArg List.length hrest
      rw [mergedFragmentsSpec_cons, mergedFragmentsSpec_cons, List.map_append, List.map_append,
        ih rest' hrest, hlen, List.map_map, List.map_map]
      congr 1
      apply List.map_congr_left
      intro k _
      simp only [Function.comp, Peak.shape, hst]
      rw [take_length_shape (f :: rest) (f' :: rest') hs (k + 1)]

theorem tiling_shape {N N' : Type} (l : List (Peak N)) (l' : List (Peak N'))
    (hs : l.map Peak.shape = l'.map Peak.shape) (n : Nat)
    (h : l.head?.map Peak.start = some 0 ∧
      List.Chain' (fun p q : Peak N => q.start = p.start + p.length) l ∧
      l.getLast?.map (fun p => p.start + p.length) = some n ∧
      (l.map Peak.length).sum = n) :
    l'.head?.map Peak.start = some 0 ∧
      List.Chain' (fun p q : Peak N' => q.start = p.start + p.length) l' ∧
      l'.getLast?.map (fun p => p.start + p.length) = some n ∧
      (l'.map Peak.length).sum = n := by
  have e1 : ∀ {X : Type} (t : List (Peak X)),
      t.head?.map Peak.start = (t.map Peak.shape).head?.map (fun u => u.1) := by
    intro X t
    rw [List.head?_map, Option.map_map]
    rfl
  have e2 : ∀ {X : Type} (t : List (Peak X)),
      List.Chain' (fun p q : Peak X => q.start = p.start + p.length) t ↔
        List.Chain' (fun u v : Nat × Nat × Nat => v.1 = u.1 + u.2.1) (t.map Peak.shape) := by
    intro X t
    rw [List.chain'_map]
    rfl
  have e3 : ∀ {X : Type} (t : List (Peak X)),
      t.getLast?.map (fun p => p.start + p.length) =
        (t.map Peak.shape).getLast?.map (fun u => u.1 + u.2.1) := by
    intro X t
    rw [List.getLast?_map, Option.map_map]
    rfl
  have e4 : ∀ {X : Type} (t : List (Peak X)),
      t.map Peak.length = (t.map Peak.shape).map (fun u => u.2.1) := by
    intro X t
    rw [List.map_map]
    rfl
  obtain ⟨h1, h2, h3, h4⟩ := h
  rw [e1, hs] at h1
  rw [e2, hs] at h2
  rw [e3, hs] at h3
  rw [e4, hs] at h4
  exact ⟨by rw [e1]; exact h1, (e2 l').2 h2, by rw [e3]; exact h3, by rw [e4]; exact h4⟩

/-- Over an exact mass type, with the cleavage characters included, the list produced with
max-miscleaves `m` is the list the spec builds from the list produced with max-miscleaves 0. -/
theorem merges_of_exact (alphabet : Char → M) (cc pc : List Char) (m : Nat)
    (peaklist peaklist' : List (Peak M)) (sequence : List Char) :
    ((PMFFragmenter.new alphabet cc pc true).setMaxMiscleaves m).predictSpectrum
        peaklist sequence =
      mergedFragmentsSpec m
        (((PMFFragmenter.new alphabet cc pc true).setMaxMiscleaves 0).predictSpectrum
          peaklist' sequence) := by
  rw [predictSpectrum_eq, predictSpectrum_eq]
  have h0 := step2_fully_cleaved ((PMFFragmenter.new alphabet cc pc true).setMaxMiscleaves 0)
    rfl rfl sequence _ 0 (step1_chain _ sequence)
  have hm := step2_merges ((PMFFragmenter.new alphabet cc pc true).setMaxMiscleaves m)
    rfl sequence _ 0 (step1_chain _ sequence)
  rw [h0]
  exact hm

/-- Over an exact mass type, with max-miscleaves 0 and the cleavage characters included, the
fragments emitted for a non-empty sequence tile it and their masses sum to its total mass. -/
theorem tiles_of_exact (alphabet : Char → M) (cc pc : List Char)
    (peaklist : List (Peak M)) (sequence : List Char) (hne : sequence ≠ []) :
    ((((PMFFragmenter.new alphabet cc pc true).setMaxMiscleaves 0).predictSpectrum
      peaklist sequence).head?.map Peak.start = some 0 ∧
    List.Chain' (fun p q : Peak M => q.start = p.start + p.length)
      (((PMFFragmenter.new alphabet cc pc true).setMaxMiscleaves 0).predictSpectrum
        peaklist sequence) ∧
    (((PMFFragmenter.new alphabet cc pc true).setMaxMiscleaves 0).predictSpectrum
      peaklist sequence).getLast?.map (fun p => p.start + p.length) = some sequence.length ∧
    ((((PMFFragmenter.new alphabet cc pc true).setMaxMiscleaves 0).predictSpectrum
      peaklist sequence).map Peak.length).sum = sequence.length) ∧
    ((((PMFFragmenter.new alphabet cc pc true).setMaxMiscleaves 0).predictSpectrum
      peaklist sequence).map Peak.mass).sum = (sequence.map alphabet).sum := by
  rw [predictSpectrum_eq]
  have hch := step1_chain ((PMFFragmenter.new alphabet cc pc true).setMaxMiscleaves 0) sequence
  rw [step2_fully_cleaved _ rfl rfl sequence _ 0 hch]
  obtain ⟨hhead, hchain, hlast, hlen, hmass⟩ := fullyCleaved_tiles _ sequence _ 0 hch
  generalize ((PMFFragmenter.new alphabet cc pc true).setMaxMiscleaves 0).step1 sequence = subs
    at hch hhead hchain hlast hlen hmass
  have hsubs : subs ≠ [] := by
    intro h
    subst h
    simp only [PMFFragmenter.Chain] at hch
    exact hne (List.length_eq_zero.1 hch.symm)
  refine ⟨⟨?_, hchain, ?_, by simpa using hlen⟩, ?_⟩
  · cases subs with
    | nil => exact absurd rfl hsubs
    | cons sf rest =>
      have := hhead (fullyCleaved sf) (by simp)
      simp [this]
  · have hne' : subs.map fullyCleaved ≠ [] := by simpa using hsubs
    obtain ⟨p, hp⟩ := Option.isSome_iff_exists.1
      (by rw [List.getLast?_isSome]; exact hne' : ((subs.map fullyCleaved).getLast?).isSome)
    rw [hp]
    simp only [Option.map_some']
    rw [hlast p hp]
  · rw [hmass]
    simp [PMFFragmenter.sumMass, PMFFragmenter.new, PMFFragmenter.setMaxMiscleaves]

/-! ## The claims -/

/-- C1: with no post-processor configured, every fragment emitted by `predictSpectrum` lies inside
the sequence (`start + length ≤ |sequence|`) and its mass is the sum of the alphabet masses of the
characters `sequence[start], ..., sequence[start + length - 1]`. -/
theorem predictSpectrum_fragment_mass (alphabet : Char → M) (cc pc : List Char) (wc : Bool)
    (m : Nat) (peaklist : List (Peak M)) (sequence : List Char) (p : Peak M)
    (hp : p ∈ ((PMFFragmenter.new alphabet cc pc wc).setMaxMiscleaves m).predictSpectrum
      peaklist sequence) :
    p.start + p.length ≤ sequence.length ∧
      p.mass = (((sequence.drop p.start).take p.length).map alphabet).sum := by
  rw [predictSpectrum_eq] at hp
  exact step2_covers _ sequence _ 0 (step1_chain _ sequence) p hp

/-- C1, at the third fragment of `AKA` cut after `K` with one miscleavage allowed. -/
theorem predictSpectrum_fragment_mass_witness :
    (Peak.mk 1 2 1 0 : Peak Int) ∈
        ((PMFFragmenter.new alphabetAK ['K'] [] true).setMaxMiscleaves 1).predictSpectrum []
          ['A', 'K', 'A'] ∧
      (2 + 1 ≤ ['A', 'K', 'A'].length ∧
        (1 : Int) = (((['A', 'K', 'A'].drop 2).take 1).map alphabetAK).sum) :=
  ⟨by decide, predictSpectrum_fragment_mass alphabetAK ['K'] [] true 1 [] ['A', 'K', 'A']
    (Peak.mk 1 2 1 0) (by decide)⟩

/-- C2: with no post-processor, the list produced with max-miscleaves `m + 1` has at least as
many fragments as the list produced with max-miscleaves `m`, and its fragments with miscleavage
count at most `m` are, in order and unchanged, exactly the list produced with `m`. -/
theorem predictSpectrum_miscleaves_succ (alphabet : Char → M) (cc pc : List Char) (wc : Bool)
    (m : Nat) (peaklist peaklist' : List (Peak M)) (sequence : List Char) :
    (((PMFFragmenter.new alphabet cc pc wc).setMaxMiscleaves m).predictSpectrum
        peaklist sequence).length ≤
      (((PMFFragmenter.new alphabet cc pc wc).setMaxMiscleaves (m + 1)).predictSpectrum
        peaklist' sequence).length ∧
    (((PMFFragmenter.new alphabet cc pc wc).setMaxMiscleaves (m + 1)).predictSpectrum
        peaklist' sequence).filter (fun p => decide (p.miscleavage_count ≤ m)) =
      ((PMFFragmenter.new alphabet cc pc wc).setMaxMiscleaves m).predictSpectrum
        peaklist sequence := by
  have key : (((PMFFragmenter.new alphabet cc pc wc).setMaxMiscleaves (m + 1)).predictSpectrum
        peaklist' sequence).filter (fun p => decide (p.miscleavage_count ≤ m)) =
      ((PMFFragmenter.new alphabet cc pc wc).setMaxMiscleaves m).predictSpectrum
        peaklist sequence := by
    rw [predictSpectrum_eq, predictSpectrum_eq]
    exact step2_filter ((PMFFragmenter.new alphabet cc pc wc).setMaxMiscleaves m)
      ((PMFFragmenter.new alphabet cc pc wc).setMaxMiscleaves (m + 1)) rfl rfl _
  refine ⟨?_, key⟩
  rw [← key]
  exact List.length_filter_le _ _

/-- C3, as stated, fails: for the sequence `K` cut after `K` the list produced with the cleavage
characters included has one fragment and the list produced without them has none, so the two
lists do not correspond fragment by fragment. -/
theorem predictSpectrum_toggle_counterexample :
    ¬ List.Forall₂
        (((PMFFragmenter.new alphabetAK ['K'] [] true).setMaxMiscleaves 0).Toggled ['K'])
        (((PMFFragmenter.new alphabetAK ['K'] [] false).setMaxMiscleaves 0).predictSpectrum []
          ['K'])
        (((PMFFragmenter.new alphabetAK ['K'] [] true).setMaxMiscleaves 0).predictSpectrum []
          ['K']) := by
  intro h
  have := h.length_eq
  revert this
  decide

/-- C3 (amended): with no post-processor, the list produced without the cleavage characters
corresponds fragment by fragment, in order and with the same start and miscleavage count, to the
list produced with them from which the fragments that are a lone terminating cleavage character
are removed; a fragment with a terminating cleavage character loses exactly that character's mass
and one unit of length, and a fragment that ends in the trailing uncleaved remainder keeps its
mass and length. -/
theorem predictSpectrum_toggle (alphabet : Char → M) (cc pc : List Char) (m : Nat)
    (peaklist peaklist' : List (Peak M)) (sequence : List Char) :
    List.Forall₂
      (((PMFFragmenter.new alphabet cc pc true).setMaxMiscleaves m).Toggled sequence)
      (((PMFFragmenter.new alphabet cc pc false).setMaxMiscleaves m).predictSpectrum
        peaklist sequence)
      ((((PMFFragmenter.new alphabet cc pc true).setMaxMiscleaves m).predictSpectrum
        peaklist' sequence).filter
        (((PMFFragmenter.new alphabet cc pc true).setMaxMiscleaves m).moreThanCleavageChar
          sequence)) := by
  rw [predictSpectrum_eq, predictSpectrum_eq]
  exact step2_toggle ((PMFFragmenter.new alphabet cc pc true).setMaxMiscleaves m)
    ((PMFFragmenter.new alphabet cc pc false).setMaxMiscleaves m) rfl rfl rfl sequence _ 0
    (step1_chain _ sequence)

/-- C4: with no post-processor, when `sequence[i]` is a cleavage character and `sequence[i+1]` is
a prohibition character, no emitted fragment starts at `i + 1`; and with cleavage set `K` and
prohibition set `P` the sequence `AKPA` gives a single fragment, with start 0 and length 4. -/
theorem predictSpectrum_prohibition (alphabet : Char → M) (cc pc : List Char) (wc : Bool)
    (m : Nat) (peaklist : List (Peak M)) :
    (∀ (sequence : List Char) (i : Nat), i + 1 < sequence.length →
      charAt sequence i ∈ cc → charAt sequence (i + 1) ∈ pc →
      ∀ p ∈ ((PMFFragmenter.new alphabet cc pc wc).setMaxMiscleaves m).predictSpectrum
        peaklist sequence, p.start ≠ i + 1) ∧
    ∃ mass, ((PMFFragmenter.new alphabet ['K'] ['P'] wc).setMaxMiscleaves m).predictSpectrum
      peaklist ['A', 'K', 'P', 'A'] = [Peak.mk mass 0 4 0] := by
  constructor
  · intro sequence i hi _ hpc p hp
    rw [predictSpectrum_eq] at hp
    have hno : ((PMFFragmenter.new alphabet cc pc wc).setMaxMiscleaves m).cleave_here
        sequence i = false := cleave_here_of_prohibited _ sequence i hi hpc
    rcases step2_start _ sequence _ 0 (step1_chain _ sequence) p hp with h | ⟨q, _, hcut, hq⟩
    · omega
    · intro h
      have hqi : q = i := by omega
      rw [hqi, hno] at hcut
      exact Bool.false_ne_true hcut
  · cases wc <;>
    simp [PMFFragmenter.predictSpectrum, clear, PMFFragmenter.step2, PMFFragmenter.step2_inner,
      PMFFragmenter.step1, PMFFragmenter.step1_loop, List.range_succ, PMFFragmenter.step1_body,
      PMFFragmenter.cleave_here, charAt, PMFFragmenter.new, PMFFragmenter.setMaxMiscleaves]

/-- C4, at the sequence `AKPA` with cleavage set `K`, prohibition set `P` and `i = 1`. -/
theorem predictSpectrum_prohibition_witness :
    ∀ p ∈ ((PMFFragmenter.new alphabetAK ['K'] ['P'] true).setMaxMiscleaves 2).predictSpectrum []
      ['A', 'K', 'P', 'A'], p.start ≠ 1 + 1 :=
  (predictSpectrum_prohibition alphabetAK ['K'] ['P'] true 2 []).1 ['A', 'K', 'P', 'A'] 1
    (by decide) (by decide) (by decide)

/-- C5, as stated, fails: the empty sequence holds no cleavage character, and `predictSpectrum`
yields no fragment for it rather than one. -/
theorem predictSpectrum_no_cleavage_counterexample :
    (∀ c ∈ ([] : List Char), c ∉ ['K']) ∧
    ¬ ∃ mass : Int, ((PMFFragmenter.new alphabetAK ['K'] [] true).setMaxMiscleaves 0).predictSpectrum
      [] [] = [Peak.mk mass 0 ([] : List Char).length 0] := by
  refine ⟨by simp, ?_⟩
  rintro ⟨mass, h⟩
  have h1 : (((PMFFragmenter.new alphabetAK ['K'] [] true).setMaxMiscleaves 0).predictSpectrum
      [] []).length = 1 := by rw [h]; rfl
  exact absurd h1 (by decide)

/-- C5 (amended): with no post-processor, for every non-empty sequence in which no cleavage
character occurs, `predictSpectrum` yields exactly one fragment, with start 0, length the sequence
length and miscleavage count 0 (its mass is the total mass of the sequence). -/
theorem predictSpectrum_no_cleavage (alphabet : Char → M) (cc pc : List Char) (wc : Bool)
    (m : Nat) (peaklist : List (Peak M)) (sequence : List Char) (hne : sequence ≠ [])
    (hno : ∀ c ∈ sequence, c ∉ cc) :
    ((PMFFragmenter.new alphabet cc pc wc).setMaxMiscleaves m).predictSpectrum peaklist sequence =
      [Peak.mk (sequence.map alphabet).sum 0 sequence.length 0] := by
  rw [predictSpectrum_eq]
  have hch := step1_chain ((PMFFragmenter.new alphabet cc pc wc).setMaxMiscleaves m) sequence
  have hcut : ∀ q, q < sequence.length →
      ((PMFFragmenter.new alphabet cc pc wc).setMaxMiscleaves m).cleave_here sequence q = false :=
    fun q hq => cleave_here_of_not_cleavage _ sequence q (hno _ (charAt_mem sequence q hq))
  generalize ((PMFFragmenter.new alphabet cc pc wc).setMaxMiscleaves m).step1 sequence = subs at hch
  cases subs with
  | nil =>
    simp only [PMFFragmenter.Chain] at hch
    exact absurd (List.length_eq_zero.1 hch.symm) hne
  | cons sf rest =>
    simp only [PMFFragmenter.Chain] at hch
    rcases hch with ⟨⟨_, _, _, _, hc, hlt, _⟩, _⟩ | ⟨⟨hs, hm, _, hcl, hccm, hpos, hend⟩, hnil⟩
    · rw [hcut _ hlt] at hc
      exact absurd hc Bool.false_ne_true
    · subst hnil
      have hlen : sf.length = sequence.length := by omega
      have hmass : sf.mass = (sequence.map alphabet).sum := by
        rw [hm, hlen]
        simp [PMFFragmenter.sumMass, PMFFragmenter.new, PMFFragmenter.setMaxMiscleaves]
      rw [step2_cons, step2_inner_cons, if_pos (Nat.zero_le _)]
      have hpk : ((PMFFragmenter.new alphabet cc pc wc).setMaxMiscleaves m).peakAt sf.start sf 0 0 0
          = Peak.mk (sequence.map alphabet).sum 0 sequence.length 0 := by
        unfold PMFFragmenter.peakAt
        split_ifs <;> simp [hs, hcl, hccm, hlen, hmass]
      have hlpos : 0 < sequence.length := by omega
      rw [hpk]
      simp [emit, hlpos, PMFFragmenter.step2_inner, PMFFragmenter.step2]

/-- C5 (amended), at the sequence `AA` with cleavage set `K`. -/
theorem predictSpectrum_no_cleavage_witness :
    ((PMFFragmenter.new alphabetAK ['K'] ['P'] false).setMaxMiscleaves 3).predictSpectrum []
        ['A', 'A'] =
      [Peak.mk (['A', 'A'].map alphabetAK).sum 0 ['A', 'A'].length 0] :=
  predictSpectrum_no_cleavage alphabetAK ['K'] ['P'] false 3 [] ['A', 'A'] (by decide) (by decide)

/-- C6, as stated, fails: when `K` is both a cleavage and a prohibition character, the sequence
`KKK` is cut after its last character only, and no fragment of length 1 is emitted. -/
theorem predictSpectrum_all_cleavage_counterexample :
    (∀ c ∈ ['K', 'K', 'K'], c ∈ ['K']) ∧
    ((((PMFFragmenter.new alphabetAK ['K'] ['K'] true).setMaxMiscleaves 0).predictSpectrum []
      ['K', 'K', 'K']).filter (fun p => decide (p.length = 1))).length ≠
        ['K', 'K', 'K'].length := by
  decide

/-- C6 (amended): with max-miscleaves 0, the cleavage characters included and no post-processor,
for every sequence that consists solely of cleavage characters and in which no character after
the first is a prohibition character, the number of emitted fragments of length 1 is the sequence
length and each of them has the mass of its character; `KKK` with cleavage set `K`, where `K` is
no prohibition character, gives three fragments of length 1 and mass `mass K`. -/
theorem predictSpectrum_all_cleavage (alphabet : Char → M) (pc : List Char)
    (peaklist : List (Peak M)) :
    (∀ (cc : List Char) (sequence : List Char), (∀ c ∈ sequence, c ∈ cc) →
      (∀ c ∈ sequence.tail, c ∉ pc) →
      ((((PMFFragmenter.new alphabet cc pc true).setMaxMiscleaves 0).predictSpectrum peaklist
        sequence).filter (fun p => decide (p.length = 1))).length = sequence.length ∧
      ∀ p ∈ ((PMFFragmenter.new alphabet cc pc true).setMaxMiscleaves 0).predictSpectrum peaklist
        sequence, p.length = 1 → p.mass = alphabet (charAt sequence p.start)) ∧
    ('K' ∉ pc →
      ((PMFFragmenter.new alphabet ['K'] pc true).setMaxMiscleaves 0).predictSpectrum peaklist
        ['K', 'K', 'K'] =
        [Peak.mk (alphabet 'K') 0 1 0, Peak.mk (alphabet 'K') 1 1 0,
          Peak.mk (alphabet 'K') 2 1 0]) := by
  constructor
  · intro cc sequence hall hpro
    rw [predictSpectrum_eq]
    have hcut : ∀ q, q < sequence.length →
        ((PMFFragmenter.new alphabet cc pc true).setMaxMiscleaves 0).cleave_here sequence q
          = true :=
      fun q hq => cleave_here_of_cleavage _ sequence q (hall _ (charAt_mem sequence q hq))
        (fun h => hpro _ (charAt_succ_mem_tail sequence q h))
    obtain ⟨hlen, hmem⟩ := step2_all_cut
      ((PMFFragmenter.new alphabet cc pc true).setMaxMiscleaves 0) rfl rfl sequence hcut _ 0
      (step1_chain _ sequence)
    constructor
    · rw [List.filter_eq_self.2 (fun p hp => by simpa using (hmem p hp).1)]
      exact hlen
    · intro p hp _
      exact (hmem p hp).2
  · intro hK
    simp [PMFFragmenter.predictSpectrum, clear, PMFFragmenter.step2, PMFFragmenter.step2_inner,
      PMFFragmenter.step1, PMFFragmenter.step1_loop, List.range_succ, PMFFragmenter.step1_body,
      PMFFragmenter.cleave_here, charAt, PMFFragmenter.new, PMFFragmenter.setMaxMiscleaves, hK]

/-- C6 (amended), at the sequence `KKK` with cleavage set `K` and prohibition set `P`. -/
theorem predictSpectrum_all_cleavage_witness :
    (((((PMFFragmenter.new alphabetAK ['K'] ['P'] true).setMaxMiscleaves 0).predictSpectrum []
        ['K', 'K', 'K']).filter (fun p => decide (p.length = 1))).length =
          ['K', 'K', 'K'].length ∧
      ∀ p ∈ ((PMFFragmenter.new alphabetAK ['K'] ['P'] true).setMaxMiscleaves 0).predictSpectrum []
        ['K', 'K', 'K'], p.length = 1 → p.mass = alphabetAK (charAt ['K', 'K', 'K'] p.start)) ∧
    ((PMFFragmenter.new alphabetAK ['K'] ['P'] true).setMaxMiscleaves 0).predictSpectrum []
        ['K', 'K', 'K'] =
      [Peak.mk (alphabetAK 'K') 0 1 0, Peak.mk (alphabetAK 'K') 1 1 0,
        Peak.mk (alphabetAK 'K') 2 1 0] :=
  ⟨(predictSpectrum_all_cleavage alphabetAK ['P'] []).1 ['K'] ['K', 'K', 'K'] (by decide)
      (by decide),
    (predictSpectrum_all_cleavage alphabetAK ['P'] []).2 (by decide)⟩

/-- C7: with masses `A = 1` and `K = 2`, cleavage set `K`, no prohibition character, the cleavage
characters included, max-miscleaves 0 and no post-processor, `predictSpectrum` on `AKA` returns
the fragments (mass 3, start 0, length 2, miscleavage 0) and (mass 1, start 2, length 1,
miscleavage 0), in that order. -/
theorem predictSpectrum_AKA_fully_cleaved (alphabet : Char → Int) (hA : alphabet 'A' = 1)
    (hK : alphabet 'K' = 2) (peaklist : List (Peak Int)) :
    ((PMFFragmenter.new alphabet ['K'] [] true).setMaxMiscleaves 0).predictSpectrum peaklist
        ['A', 'K', 'A'] = [Peak.mk 3 0 2 0, Peak.mk 1 2 1 0] := by
  simp [PMFFragmenter.predictSpectrum, clear, PMFFragmenter.step2, PMFFragmenter.step2_inner,
    PMFFragmenter.step1, PMFFragmenter.step1_loop, List.range_succ, PMFFragmenter.step1_body,
    PMFFragmenter.cleave_here, charAt, PMFFragmenter.new, PMFFragmenter.setMaxMiscleaves, hA, hK]

/-- C7, at the alphabet `alphabetAK` and an empty output list. -/
theorem predictSpectrum_AKA_fully_cleaved_witness :
    ((PMFFragmenter.new alphabetAK ['K'] [] true).setMaxMiscleaves 0).predictSpectrum []
        ['A', 'K', 'A'] = [Peak.mk 3 0 2 0, Peak.mk 1 2 1 0] :=
  predictSpectrum_AKA_fully_cleaved alphabetAK (by decide) (by decide) []

/-- C8: the same inputs with max-miscleaves 1 give three fragments: the two obtained with
max-miscleaves 0 and one additional fragment (mass 4, start 0, length 3, miscleavage 1), which
is emitted between them. -/
theorem predictSpectrum_AKA_one_miscleavage (alphabet : Char → Int) (hA : alphabet 'A' = 1)
    (hK : alphabet 'K' = 2) (peaklist : List (Peak Int)) :
    ((PMFFragmenter.new alphabet ['K'] [] true).setMaxMiscleaves 1).predictSpectrum peaklist
        ['A', 'K', 'A'] = [Peak.mk 3 0 2 0, Peak.mk 4 0 3 1, Peak.mk 1 2 1 0] ∧
    List.Perm
      (((PMFFragmenter.new alphabet ['K'] [] true).setMaxMiscleaves 1).predictSpectrum peaklist
        ['A', 'K', 'A'])
      (((PMFFragmenter.new alphabet ['K'] [] true).setMaxMiscleaves 0).predictSpectrum peaklist
        ['A', 'K', 'A'] ++ [Peak.mk 4 0 3 1]) ∧
    (((PMFFragmenter.new alphabet ['K'] [] true).setMaxMiscleaves 1).predictSpectrum peaklist
        ['A', 'K', 'A']).length = 3 := by
  have h1 : ((PMFFragmenter.new alphabet ['K'] [] true).setMaxMiscleaves 1).predictSpectrum
      peaklist ['A', 'K', 'A'] = [Peak.mk 3 0 2 0, Peak.mk 4 0 3 1, Peak.mk 1 2 1 0] := by
    simp [PMFFragmenter.predictSpectrum, clear, PMFFragmenter.step2, PMFFragmenter.step2_inner,
      PMFFragmenter.step1, PMFFragmenter.step1_loop, List.range_succ, PMFFragmenter.step1_body,
      PMFFragmenter.cleave_here, charAt, PMFFragmenter.new, PMFFragmenter.setMaxMiscleaves, hA, hK]
  have h0 : ((PMFFragmenter.new alphabet ['K'] [] true).setMaxMiscleaves 0).predictSpectrum
      peaklist ['A', 'K', 'A'] = [Peak.mk 3 0 2 0, Peak.mk 1 2 1 0] := by
    simp [PMFFragmenter.predictSpectrum, clear, PMFFragmenter.step2, PMFFragmenter.step2_inner,
      PMFFragmenter.step1, PMFFragmenter.step1_loop, List.range_succ, PMFFragmenter.step1_body,
      PMFFragmenter.cleave_here, charAt, PMFFragmenter.new, PMFFragmenter.setMaxMiscleaves, hA, hK]
  rw [h1, h0]
  exact ⟨rfl, List.Perm.cons _ (List.Perm.swap _ _ _), rfl⟩

/-- C8, at the alphabet `alphabetAK` and an empty output list. -/
theorem predictSpectrum_AKA_one_miscleavage_witness :
    ((PMFFragmenter.new alphabetAK ['K'] [] true).setMaxMiscleaves 1).predictSpectrum []
        ['A', 'K', 'A'] = [Peak.mk 3 0 2 0, Peak.mk 4 0 3 1, Peak.mk 1 2 1 0] :=
  (predictSpectrum_AKA_one_miscleavage alphabetAK (by decide) (by decide) []).1

/-- C9: with no post-processor, `predictSpectrum` on the empty sequence leaves the output list
empty whatever it held before, and for every sequence the resulting list does not depend on what
the output list held before the call. -/
theorem predictSpectrum_clears (alphabet : Char → M) (cc pc : List Char) (wc : Bool) (m : Nat)
    (peaklist peaklist' : List (Peak M)) (sequence : List Char) :
    ((PMFFragmenter.new alphabet cc pc wc).setMaxMiscleaves m).predictSpectrum peaklist [] = [] ∧
    ((PMFFragmenter.new alphabet cc pc wc).setMaxMiscleaves m).predictSpectrum peaklist sequence =
      ((PMFFragmenter.new alphabet cc pc wc).setMaxMiscleaves m).predictSpectrum peaklist'
        sequence := by
  constructor
  · simp [PMFFragmenter.predictSpectrum, clear, PMFFragmenter.step1, PMFFragmenter.step1_loop,
      PMFFragmenter.step2, PMFFragmenter.new, PMFFragmenter.setMaxMiscleaves]
  · simp only [PMFFragmenter.predictSpectrum, clear]

/-- C10: with no post-processor the emitted list is in sequence-occurrence order: the start
offsets are non-decreasing along the list, of two consecutive fragments with the same start offset
the second has the larger miscleavage count and the larger length, and no two emitted fragments
share the same pair (start, length). -/
theorem predictSpectrum_occurrence_order (alphabet : Char → M) (cc pc : List Char) (wc : Bool)
    (m : Nat) (peaklist : List (Peak M)) (sequence : List Char) :
    List.Pairwise (fun p q : Peak M => p.start ≤ q.start)
      (((PMFFragmenter.new alphabet cc pc wc).setMaxMiscleaves m).predictSpectrum
        peaklist sequence) ∧
    List.Chain' (fun p q : Peak M => p.start = q.start →
        p.miscleavage_count < q.miscleavage_count ∧ p.length < q.length)
      (((PMFFragmenter.new alphabet cc pc wc).setMaxMiscleaves m).predictSpectrum
        peaklist sequence) ∧
    List.Nodup ((((PMFFragmenter.new alphabet cc pc wc).setMaxMiscleaves m).predictSpectrum
        peaklist sequence).map (fun p => (p.start, p.length))) := by
  rw [predictSpectrum_eq]
  have key := step2_pairwise ((PMFFragmenter.new alphabet cc pc wc).setMaxMiscleaves m) sequence
    _ 0 (step1_chain _ sequence)
  refine ⟨?_, ?_, ?_⟩
  · refine key.imp ?_
    intro p q h
    rcases h with h | h
    · exact Nat.le_of_lt h
    · exact Nat.le_of_eq h.1
  · refine List.Pairwise.chain' (key.imp ?_)
    intro p q h heq
    rcases h with h | h
    · omega
    · exact h.2
  · rw [List.Nodup, List.pairwise_map]
    refine key.imp ?_
    intro p q h heq
    have h1 : p.start = q.start := congrArg Prod.fst heq
    have h2 : p.length = q.length := congrArg Prod.snd heq
    rcases h with h | h
    · omega
    · omega

/-- C11: with no post-processor, either inclusion policy and any max-miscleaves, every fragment
emitted by `predictSpectrum` has length greater than 0. -/
theorem predictSpectrum_length_pos (alphabet : Char → M) (cc pc : List Char) (wc : Bool)
    (m : Nat) (peaklist : List (Peak M)) (sequence : List Char) (p : Peak M)
    (hp : p ∈ ((PMFFragmenter.new alphabet cc pc wc).setMaxMiscleaves m).predictSpectrum
      peaklist sequence) :
    0 < p.length := by
  rw [predictSpectrum_eq] at hp
  exact step2_pos _ _ p hp

/-- C11, at the first fragment of `KA` cut after `K` with the cleavage characters left out. -/
theorem predictSpectrum_length_pos_witness :
    (Peak.mk 1 1 1 0 : Peak Int) ∈
        ((PMFFragmenter.new alphabetAK ['K'] [] false).setMaxMiscleaves 1).predictSpectrum []
          ['K', 'A'] ∧
      0 < (Peak.mk 1 1 1 0 : Peak Int).length :=
  ⟨by decide, predictSpectrum_length_pos alphabetAK ['K'] [] false 1 [] ['K', 'A']
    (Peak.mk 1 1 1 0) (by decide)⟩

/-- C12: with no post-processor, `predictSpectrum` produces a list for every max-miscleaves value
(the function is total), and for every `m` at least the sequence length the list produced with
max-miscleaves `m` is the list produced with max-miscleaves equal to the sequence length. -/
theorem predictSpectrum_miscleaves_saturated (alphabet : Char → M) (cc pc : List Char)
    (wc : Bool) (m : Nat) (peaklist : List (Peak M)) (sequence : List Char) :
    (∃ l, ((PMFFragmenter.new alphabet cc pc wc).setMaxMiscleaves m).predictSpectrum
      peaklist sequence = l) ∧
    (sequence.length ≤ m →
      ((PMFFragmenter.new alphabet cc pc wc).setMaxMiscleaves m).predictSpectrum
          peaklist sequence =
        ((PMFFragmenter.new alphabet cc pc wc).setMaxMiscleaves sequence.length).predictSpectrum
          peaklist sequence) := by
  refine ⟨⟨_, rfl⟩, ?_⟩
  intro hm
  rw [predictSpectrum_eq, predictSpectrum_eq]
  have hlen := chain_length ((PMFFragmenter.new alphabet cc pc wc).setMaxMiscleaves m) sequence
    _ 0 (step1_chain _ sequence)
  have hmax : ((PMFFragmenter.new alphabet cc pc wc).setMaxMiscleaves m).max_miscleaves = m := rfl
  have hmax' : ((PMFFragmenter.new alphabet cc pc wc).setMaxMiscleaves
    sequence.length).max_miscleaves = sequence.length := rfl
  exact step2_saturated ((PMFFragmenter.new alphabet cc pc wc).setMaxMiscleaves sequence.length)
    ((PMFFragmenter.new alphabet cc pc wc).setMaxMiscleaves m) rfl _
    (by rw [hmax']; omega) (by rw [hmax]; omega)

/-- C12, at the sequence `AKA` with max-miscleaves 7. -/
theorem predictSpectrum_miscleaves_saturated_witness :
    ((PMFFragmenter.new alphabetAK ['K'] [] true).setMaxMiscleaves 7).predictSpectrum []
        ['A', 'K', 'A'] =
      ((PMFFragmenter.new alphabetAK ['K'] [] true).setMaxMiscleaves
        ['A', 'K', 'A'].length).predictSpectrum [] ['A', 'K', 'A'] :=
  (predictSpectrum_miscleaves_saturated alphabetAK ['K'] [] true 7 [] ['A', 'K', 'A']).2
    (by decide)

/-- C13: a newly constructed generator has max-miscleaves 0; a copy-constructed generator has the
alphabet, cleavage characters, prohibition characters and inclusion flag of its source and
max-miscleaves 0 whatever the source had; hence, the base-class copy keeping the modifier,
`predictSpectrum` on the copy is `predictSpectrum` on the source after `setMaxMiscleaves(0)`. -/
theorem copy_resets_max_miscleaves
    (base_copy : Option (List (Peak M) → List (Peak M)) → Option (List (Peak M) → List (Peak M)))
    (alphabet : Char → M) (cc pc : List Char) (wc : Bool) (source : PMFFragmenter M)
    (peaklist : List (Peak M)) (sequence : List Char) :
    (PMFFragmenter.new alphabet cc pc wc).getMaxMiscleaves = 0 ∧
    (PMFFragmenter.copy base_copy source).alphabet = source.alphabet ∧
    (PMFFragmenter.copy base_copy source).cleavage_characters = source.cleavage_characters ∧
    (PMFFragmenter.copy base_copy source).prohibition_characters =
      source.prohibition_characters ∧
    (PMFFragmenter.copy base_copy source).withCleave = source.withCleave ∧
    (PMFFragmenter.copy base_copy source).getMaxMiscleaves = 0 ∧
    (base_copy source.modifier = source.modifier →
      (PMFFragmenter.copy base_copy source).predictSpectrum peaklist sequence =
        (source.setMaxMiscleaves 0).predictSpectrum peaklist sequence) := by
  refine ⟨rfl, rfl, rfl, rfl, rfl, rfl, ?_⟩
  intro h
  have e : PMFFragmenter.copy base_copy source = source.setMaxMiscleaves 0 := by
    simp only [PMFFragmenter.copy, PMFFragmenter.setMaxMiscleaves, h]
  rw [e]

/-- C13, at a source generator with max-miscleaves 5 and the sequence `AKA`. -/
theorem copy_resets_max_miscleaves_witness :
    (PMFFragmenter.copy id
        ((PMFFragmenter.new alphabetAK ['K'] [] true).setMaxMiscleaves 5)).predictSpectrum []
        ['A', 'K', 'A'] =
      (((PMFFragmenter.new alphabetAK ['K'] [] true).setMaxMiscleaves 5).setMaxMiscleaves
        0).predictSpectrum [] ['A', 'K', 'A'] :=
  (copy_resets_max_miscleaves id alphabetAK ['K'] [] true
    ((PMFFragmenter.new alphabetAK ['K'] [] true).setMaxMiscleaves 5) []
    ['A', 'K', 'A']).2.2.2.2.2.2 rfl

/-- C14: with no post-processor, the number of emitted fragments is at most
`|sequence| * (m + 1)` for max-miscleaves `m`, and at most `m + 1` emitted fragments share any
one start offset. -/
theorem predictSpectrum_count_le (alphabet : Char → M) (cc pc : List Char) (wc : Bool)
    (m : Nat) (peaklist : List (Peak M)) (sequence : List Char) :
    (((PMFFragmenter.new alphabet cc pc wc).setMaxMiscleaves m).predictSpectrum
      peaklist sequence).length ≤ sequence.length * (m + 1) ∧
    ∀ s : Nat, ((((PMFFragmenter.new alphabet cc pc wc).setMaxMiscleaves m).predictSpectrum
      peaklist sequence).filter (fun p => decide (p.start = s))).length ≤ m + 1 := by
  rw [predictSpectrum_eq]
  have hch := step1_chain ((PMFFragmenter.new alphabet cc pc wc).setMaxMiscleaves m) sequence
  have hlen := chain_length _ sequence _ 0 hch
  constructor
  · refine (step2_length_le _ _).trans ?_
    exact Nat.mul_le_mul_right _ (by omega)
  · exact step2_same_start _ sequence _ 0 hch

/-- C15, as stated, fails over a mass type whose addition rounds: for `XKAK` cut after `K`, `X`
of mass 2^53 and the other characters of mass 1, the running total of STEP 2 gives the merged
fragment the mass 2^53, where the sum of the masses of the two fully cleaved fragments is
2^53 + 2. -/
theorem predictSpectrum_merges_counterexample :
    ((PMFFragmenter.new alphabetXKA ['K'] [] true).setMaxMiscleaves 1).predictSpectrum []
        ['X', 'K', 'A', 'K'] ≠
      mergedFragmentsSpec 1
        (((PMFFragmenter.new alphabetXKA ['K'] [] true).setMaxMiscleaves 0).predictSpectrum []
          ['X', 'K', 'A', 'K']) := by
  decide

/-- C15 (amended): with the cleavage characters included and no post-processor, for every mass
type the list produced with max-miscleaves `m` has the start offsets, lengths and miscleavage
counts of the list the spec builds from the list `F` produced with max-miscleaves 0 (for each `j`
and each `k` from 0 to `min(m, |F| - 1 - j)`: the start of `F[j]`, the summed lengths of
`F[j], ..., F[j + k]`, and `k`); and over an exact mass type (an additive monoid) it is that list,
masses included. -/
theorem predictSpectrum_merges (cc pc : List Char) (m : Nat) (sequence : List Char) :
    (∀ (N : Type) [Add N] [Zero N] (alphabet : Char → N) (peaklist peaklist' : List (Peak N)),
      (((PMFFragmenter.new alphabet cc pc true).setMaxMiscleaves m).predictSpectrum
          peaklist sequence).map Peak.shape =
        (mergedFragmentsSpec m
          (((PMFFragmenter.new alphabet cc pc true).setMaxMiscleaves 0).predictSpectrum
            peaklist' sequence)).map Peak.shape) ∧
    (∀ (E : Type) [AddMonoid E] (alphabet : Char → E) (peaklist peaklist' : List (Peak E)),
      ((PMFFragmenter.new alphabet cc pc true).setMaxMiscleaves m).predictSpectrum
          peaklist sequence =
        mergedFragmentsSpec m
          (((PMFFragmenter.new alphabet cc pc true).setMaxMiscleaves 0).predictSpectrum
            peaklist' sequence)) := by
  constructor
  · intro N _ _ alphabet peaklist peaklist'
    rw [predictSpectrum_shape alphabet (fun _ => (0 : Nat)) cc pc true m peaklist [] sequence,
      merges_of_exact (fun _ => (0 : Nat)) cc pc m [] [] sequence]
    exact mergedFragmentsSpec_shape m _ _
      (predictSpectrum_shape (fun _ => (0 : Nat)) alphabet cc pc true 0 [] peaklist' sequence)
  · intro E _ alphabet peaklist peaklist'
    exact merges_of_exact alphabet cc pc m peaklist peaklist' sequence

/-- C16: without the cleavage characters and with no post-processor, for every non-empty
sequence whose last character is a cleavage character, be it a prohibition character too, every
emitted fragment satisfies `start + length ≤ |sequence| - 1`: no fragment contains the final
character. -/
theorem predictSpectrum_final_cleavage (alphabet : Char → M) (cc pc : List Char) (m : Nat)
    (peaklist : List (Peak M)) (sequence : List Char) (hne : sequence ≠ [])
    (hlast : sequence.getLast hne ∈ cc) (p : Peak M)
    (hp : p ∈ ((PMFFragmenter.new alphabet cc pc false).setMaxMiscleaves m).predictSpectrum
      peaklist sequence) :
    p.start + p.length ≤ sequence.length - 1 := by
  rw [predictSpectrum_eq] at hp
  have hpos : 0 < sequence.length := List.length_pos.2 hne
  have hcut : ((PMFFragmenter.new alphabet cc pc false).setMaxMiscleaves m).cleave_here sequence
      (sequence.length - 1) = true := by
    apply cleave_here_of_cleavage
    · rw [charAt_last sequence hne]; exact hlast
    · intro h; omega
  have := step2_excludes_last _ rfl sequence hpos hcut _ 0 (step1_chain _ sequence) p hp
  omega

/-- C16, at the sequence `AKK` where `K` is both a cleavage and a prohibition character. -/
theorem predictSpectrum_final_cleavage_witness :
    (Peak.mk 3 0 2 0 : Peak Int) ∈
        ((PMFFragmenter.new alphabetAK ['K'] ['K'] false).setMaxMiscleaves 1).predictSpectrum []
          ['A', 'K', 'K'] ∧
      (Peak.mk 3 0 2 0 : Peak Int).start + (Peak.mk 3 0 2 0 : Peak Int).length ≤
        ['A', 'K', 'K'].length - 1 :=
  ⟨by decide, predictSpectrum_final_cleavage alphabetAK ['K'] ['K'] 1 [] ['A', 'K', 'K']
    (by decide) (by decide) (Peak.mk 3 0 2 0) (by decide)⟩

/-- C17, as stated, fails over a mass type whose addition rounds: for `XKAK` cut after `K`, `X`
of mass 2^53 and the other characters of mass 1, the two fragment masses sum to 2^53 + 2, where
the masses of the four characters sum to 2^53 + 4 from the right and to 2^53 from the left. -/
theorem predictSpectrum_tiles_counterexample :
    ['X', 'K', 'A', 'K'] ≠ [] ∧
    ((((PMFFragmenter.new alphabetXKA ['K'] [] true).setMaxMiscleaves 0).predictSpectrum []
        ['X', 'K', 'A', 'K']).map Peak.mass).sum ≠ (['X', 'K', 'A', 'K'].map alphabetXKA).sum ∧
    ((((PMFFragmenter.new alphabetXKA ['K'] [] true).setMaxMiscleaves 0).predictSpectrum []
        ['X', 'K', 'A', 'K']).map Peak.mass).sum ≠
      (['X', 'K', 'A', 'K'].map alphabetXKA).foldl (fun a b => a + b) 0 := by
  decide

/-- C17 (amended): with max-miscleaves 0, the cleavage characters included and no
post-processor, for every mass type the fragments emitted for a non-empty sequence tile it: the
first starts at 0, each following one starts where the previous one ends, the last ends at
`|sequence|`, and the lengths sum to `|sequence|`; and over an exact mass type (an additive
monoid) the fragment masses sum to the total mass of the sequence. -/
theorem predictSpectrum_tiles (cc pc : List Char) (sequence : List Char) (hne : sequence ≠ []) :
    (∀ (N : Type) [Add N] [Zero N] (alphabet : Char → N) (peaklist : List (Peak N)),
      (((PMFFragmenter.new alphabet cc pc true).setMaxMiscleaves 0).predictSpectrum
        peaklist sequence).head?.map Peak.start = some 0 ∧
      List.Chain' (fun p q : Peak N => q.start = p.start + p.length)
        (((PMFFragmenter.new alphabet cc pc true).setMaxMiscleaves 0).predictSpectrum
          peaklist sequence) ∧
      (((PMFFragmenter.new alphabet cc pc true).setMaxMiscleaves 0).predictSpectrum
        peaklist sequence).getLast?.map (fun p => p.start + p.length) = some sequence.length ∧
      ((((PMFFragmenter.new alphabet cc pc true).setMaxMiscleaves 0).predictSpectrum
        peaklist sequence).map Peak.length).sum = sequence.length) ∧
    (∀ (E : Type) [AddMonoid E] (alphabet : Char → E) (peaklist : List (Peak E)),
      ((((PMFFragmenter.new alphabet cc pc true).setMaxMiscleaves 0).predictSpectrum
        peaklist sequence).map Peak.mass).sum = (sequence.map alphabet).sum) := by
  constructor
  · intro N _ _ alphabet peaklist
    exact tiling_shape _ _
      (predictSpectrum_shape (fun _ => (0 : Nat)) alphabet cc pc true 0 [] peaklist sequence)
      sequence.length (tiles_of_exact (fun _ => (0 : Nat)) cc pc [] sequence hne).1
  · intro E _ alphabet peaklist
    exact (tiles_of_exact alphabet cc pc peaklist sequence hne).2

/-- C17 (amended), at the sequence `XKAK` cut after `K`, over the rounding mass type for the
tiling and over the integers for the masses. -/
theorem predictSpectrum_tiles_witness :
    ((((PMFFragmenter.new alphabetXKA ['K'] [] true).setMaxMiscleaves 0).predictSpectrum
      [] ['X', 'K', 'A', 'K']).map Peak.length).sum = ['X', 'K', 'A', 'K'].length ∧
    ((((PMFFragmenter.new alphabetAK ['K'] [] true).setMaxMiscleaves 0).predictSpectrum
      [] ['X', 'K', 'A', 'K']).map Peak.mass).sum = (['X', 'K', 'A', 'K'].map alphabetAK).sum :=
  ⟨((predictSpectrum_tiles ['K'] [] ['X', 'K', 'A', 'K'] (by decide)).1 RoundedMass alphabetXKA
      []).2.2.2,
    (predictSpectrum_tiles ['K'] [] ['X', 'K', 'A', 'K'] (by decide)).2 Int alphabetAK []⟩

/-- C18: with no post-processor, every emitted fragment has a miscleavage count of at most
max-miscleaves, and that count is the number of cut positions `p` with
`start ≤ p < start + length - 1` when the cleavage characters are included, and with
`start ≤ p < start + length` when they are not. -/
theorem predictSpectrum_miscleavage_count (alphabet : Char → M) (cc pc : List Char) (wc : Bool)
    (m : Nat) (peaklist : List (Peak M)) (sequence : List Char) (p : Peak M)
    (hp : p ∈ ((PMFFragmenter.new alphabet cc pc wc).setMaxMiscleaves m).predictSpectrum
      peaklist sequence) :
    p.miscleavage_count ≤ m ∧
      p.miscleavage_count =
        cutCount cc pc sequence p.start (if wc then p.length - 1 else p.length) := by
  rw [predictSpectrum_eq] at hp
  exact step2_cuts ((PMFFragmenter.new alphabet cc pc wc).setMaxMiscleaves m) sequence _ 0
    (step1_chain _ sequence) p hp

/-- C18, at the merged fragment of `AKA` cut after `K`. -/
theorem predictSpectrum_miscleavage_count_witness :
    (Peak.mk 4 0 3 1 : Peak Int) ∈
        ((PMFFragmenter.new alphabetAK ['K'] [] true).setMaxMiscleaves 1).predictSpectrum []
          ['A', 'K', 'A'] ∧
      ((Peak.mk 4 0 3 1 : Peak Int).miscleavage_count ≤ 1 ∧
        (Peak.mk 4 0 3 1 : Peak Int).miscleavage_count =
          cutCount ['K'] [] ['A', 'K', 'A'] (Peak.mk 4 0 3 1 : Peak Int).start
            (if true then (Peak.mk 4 0 3 1 : Peak Int).length - 1
              else (Peak.mk 4 0 3 1 : Peak Int).length)) :=
  ⟨by decide, predictSpectrum_miscleavage_count alphabetAK ['K'] [] true 1 [] ['A', 'K', 'A']
    (Peak.mk 4 0 3 1) (by decide)⟩

end ims
